import Mathlib

/-!
# Verification of the LZW codec in `lzw.py`

This file gives a shallow embedding of the core codec of the repository
(`TrieNode`, `Trie`, `lzw_compress`, `lzw_decompress`) and proves the
testable properties stated for it, most prominently the encoder/decoder
round-trip.

Modelling conventions:
* Python `bytes` values become `List Nat`, together with the hypothesis
  `∀ b ∈ x, b < 256` wherever faithfulness to the byte type matters.
* Python `dict`s become association lists (`List (Nat × α)`): lookup finds
  the first matching key, assignment updates the first matching binding or
  appends a fresh one, exactly mirroring dict membership and assignment.
* Fallible code returns `Except DecompressError`; the three distinct Python
  exceptions raised by `lzw_decompress` become three distinct constructors.
* `trie.search` can return Python `None`, so the compressor's accumulated
  `compressed_data` is a `List (Option Nat)`, just as the Python list could
  in principle hold `None` values.
-/

set_option autoImplicit false

/-- First-match lookup in an association list: `alistFind l k` is
`l[k]` / `k in l` for a Python dict represented as its binding list. -/
def alistFind {α : Type} : List (Nat × α) → Nat → Option α
  | [], _ => none
  | (k, v) :: rest, key => if k = key then some v else alistFind rest key

/-- Dict assignment `l[k] = v`: replace the first binding of `k`, or append
a fresh binding if `k` is absent. -/
def alistSet {α : Type} : List (Nat × α) → Nat → α → List (Nat × α)
  | [], key, value => [(key, value)]
  | (k, v) :: rest, key, value =>
      if k = key then (key, value) :: rest else (k, v) :: alistSet rest key value

/-- A node of the compression trie (`class TrieNode`): children indexed by
the next byte, plus the optional code of the root-to-node sequence. -/
inductive TrieNode where
  | mk (children : List (Nat × TrieNode)) (code : Option Nat)

/-- The `children` field of a `TrieNode`. -/
def TrieNode.children : TrieNode → List (Nat × TrieNode)
  | .mk ch _ => ch

/-- The `code` field of a `TrieNode`. -/
def TrieNode.code : TrieNode → Option Nat
  | .mk _ cd => cd

/-- `TrieNode.__init__`: empty children, no code. -/
def TrieNode.empty : TrieNode := .mk [] none

/-- `Trie.insert` (the per-node part): walk the key, creating missing
children, and set the code at the final node. -/
def TrieNode.insert : TrieNode → List Nat → Nat → TrieNode
  | .mk ch _, [], code => .mk ch (some code)
  | .mk ch cd, b :: key, code =>
      let child := (alistFind ch b).getD TrieNode.empty
      .mk (alistSet ch b (child.insert key code)) cd

/-- `Trie.search` (the per-node part): walk the key, returning `none` if a
child is missing, else the code stored at the final node. -/
def TrieNode.search : TrieNode → List Nat → Option Nat
  | .mk _ cd, [] => cd
  | .mk ch _, b :: key =>
      match alistFind ch b with
      | none => none
      | some child => child.search key

/-- `class Trie`: a root node plus the next assignable code. -/
structure Trie where
  root : TrieNode
  next_code : Nat

/-- `Trie.insert`. -/
def Trie.insert (t : Trie) (key : List Nat) (code : Nat) : Trie :=
  { t with root := t.root.insert key code }

/-- `Trie.search`. -/
def Trie.search (t : Trie) (key : List Nat) : Option Nat :=
  t.root.search key

/-- `Trie.get_next_code`: return the next code and the trie with the
counter advanced. -/
def Trie.get_next_code (t : Trie) : Nat × Trie :=
  (t.next_code, { t with next_code := t.next_code + 1 })

/-- The local state of `lzw_compress`'s loop. -/
structure CState where
  trie : Trie
  current_bytes : List Nat
  compressed_data : List (Option Nat)
  current_code_size : Nat
  max_table_size : Nat

/-- The compressor's starting trie (lines 57-61): `Trie()` followed by
`trie.insert(bytes([i]), i)` for `i` in `range(256)`. -/
def initTrie : Trie :=
  (List.range 256).foldl (fun t i => t.insert [i] i) { root := TrieNode.empty, next_code := 256 }

/-- The initial state of `lzw_compress` (lines 56-68): a trie pre-populated
with the 256 single-byte sequences (`next_code = 256`), empty current match
and output, code size 9 when `variable_bits` else `max_bits`, and table
ceiling `2 ^ current_code_size` (the earlier `2 ^ max_bits` at line 56 is
overwritten at line 68 before it is ever read). -/
def compressInit (max_bits : Nat) (variable_bits : Bool) : CState :=
  let current_code_size := if variable_bits then 9 else max_bits
  { trie := initTrie
    current_bytes := []
    compressed_data := []
    current_code_size := current_code_size
    max_table_size := 2 ^ current_code_size }

/-- One iteration of the `for byte in input_bytes` loop of `lzw_compress`
(lines 71-86). -/
def compressStep (max_bits : Nat) (variable_bits : Bool) (s : CState) (byte : Nat) : CState :=
  let new_bytes := s.current_bytes ++ [byte]
  if (s.trie.search new_bytes).isSome then
    { s with current_bytes := new_bytes }
  else
    let s1 := { s with compressed_data := s.compressed_data ++ [s.trie.search s.current_bytes] }
    let s2 :=
      if s1.trie.next_code < s1.max_table_size then
        let (code, trie1) := s1.trie.get_next_code
        { s1 with trie := trie1.insert new_bytes code }
      else s1
    let s3 := { s2 with current_bytes := [byte] }
    if variable_bits ∧ s3.max_table_size ≤ s3.trie.next_code ∧ s3.current_code_size < max_bits then
      { s3 with
        current_code_size := s3.current_code_size + 1
        max_table_size := 2 ^ (s3.current_code_size + 1) }
    else s3

/-- `lzw_compress(input_bytes, max_bits, variable_bits)`: the loop above,
followed by the final flush of a non-empty current match (lines 89-92).
Returns the code list and the final code size. -/
def lzw_compress (input_bytes : List Nat) (max_bits : Nat) (variable_bits : Bool) :
    List (Option Nat) × Nat :=
  let final := input_bytes.foldl (compressStep max_bits variable_bits)
    (compressInit max_bits variable_bits)
  let compressed_data :=
    if final.current_bytes = [] then final.compressed_data
    else final.compressed_data ++ [final.trie.search final.current_bytes]
  (compressed_data, final.current_code_size)

/-- The three exceptions `lzw_decompress` can raise:
* `emptyInput` — the `IndexError` from `compressed_data.pop(0)` on an empty
  list (line 108);
* `keyError c` — the `KeyError` from `table[current_code]` when the first
  code `c` is not a key of the initial table (line 109);
* `invalidCode` — the `ValueError("Erro na descompressão: código inválido.")`
  raised in the loop (line 121). -/
inductive DecompressError where
  | emptyInput
  | keyError (code : Nat)
  | invalidCode
deriving DecidableEq

/-- The local state of `lzw_decompress`'s loop. -/
structure DSt where
  table : List (Nat × List Nat)
  next_code : Nat
  current_code_size : Nat
  max_table_size : Nat
  current_bytes : List Nat
  decompressed_data : List (List Nat)

/-- The decoder's initial table `{i: bytes([i]) for i in range(256)}`. -/
def initTable : List (Nat × List Nat) :=
  (List.range 256).map (fun i => (i, [i]))

/-- The state of `lzw_decompress` right after consuming the first code
(lines 102-110), given the sequence `cb` that the first code resolved to. -/
def dInit (max_bits : Nat) (variable_bits : Bool) (cb : List Nat) : DSt :=
  let current_code_size := if variable_bits then 9 else max_bits
  { table := initTable
    next_code := 256
    current_code_size := current_code_size
    max_table_size := 2 ^ current_code_size
    current_bytes := cb
    decompressed_data := [cb] }

/-- The common tail of a loop iteration of `lzw_decompress` (lines
123-135), once the entry for the current code has been resolved: emit the
entry, conditionally register `current_bytes + entry[:1]`, apply the width
growth rule, and make the entry the new `current_bytes`. -/
def dstepRecord (max_bits : Nat) (variable_bits : Bool) (st : DSt) (entry : List Nat) : DSt :=
  let decompressed_data := st.decompressed_data ++ [entry]
  let (table1, next_code1) :=
    if st.next_code < st.max_table_size then
      (alistSet st.table st.next_code (st.current_bytes ++ entry.take 1), st.next_code + 1)
    else (st.table, st.next_code)
  let (size1, ceil1) :=
    if variable_bits ∧ st.max_table_size ≤ next_code1 ∧ st.current_code_size < max_bits then
      (st.current_code_size + 1, 2 ^ (st.current_code_size + 1))
    else (st.current_code_size, st.max_table_size)
  { table := table1
    next_code := next_code1
    current_code_size := size1
    max_table_size := ceil1
    current_bytes := entry
    decompressed_data := decompressed_data }

/-- One iteration of the `for code in compressed_data` loop of
`lzw_decompress` (lines 113-135): resolve the code to its entry (table hit,
forward reference, or `ValueError`), then run `dstepRecord`. -/
def dstep (max_bits : Nat) (variable_bits : Bool) (st : DSt) (code : Nat) :
    Except DecompressError DSt :=
  match alistFind st.table code with
  | some entry => .ok (dstepRecord max_bits variable_bits st entry)
  | none =>
      if code = st.next_code then
        .ok (dstepRecord max_bits variable_bits st (st.current_bytes ++ st.current_bytes.take 1))
      else .error .invalidCode

/-- The whole loop of `lzw_decompress` over the remaining codes. -/
def drun (max_bits : Nat) (variable_bits : Bool) : DSt → List Nat → Except DecompressError DSt
  | st, [] => .ok st
  | st, code :: rest =>
      match dstep max_bits variable_bits st code with
      | .error e => .error e
      | .ok st1 => drun max_bits variable_bits st1 rest

/-- `lzw_decompress(compressed_data, max_bits, variable_bits)`: pop the
first code, resolve it in the initial table, run the loop, and join the
emitted chunks (lines 100-137). -/
def lzw_decompress (compressed_data : List Nat) (max_bits : Nat) (variable_bits : Bool) :
    Except DecompressError (List Nat) :=
  match compressed_data with
  | [] => .error .emptyInput
  | current_code :: rest =>
      match alistFind initTable current_code with
      | none => .error (.keyError current_code)
      | some current_bytes =>
          match drun max_bits variable_bits (dInit max_bits variable_bits current_bytes) rest with
          | .error e => .error e
          | .ok st => .ok st.decompressed_data.flatten

/-- The caller-visible effect of `compressed_data.pop(0)` at line 108 on
the list object the caller passed in: after `lzw_decompress` returns or
raises, a non-empty argument list has lost its first element (the `pop`
happens before any further use of the list, and nothing else mutates it);
an empty argument raises `IndexError` before any mutation, leaving the
list unchanged. -/
def lzw_decompress_input_after (compressed_data : List Nat) : List Nat :=
  match compressed_data with
  | [] => []
  | _ :: rest => rest

/-! ## Association-list lemmas -/

theorem alistFind_alistSet {α : Type} (l : List (Nat × α)) (k : Nat) (v : α) (k' : Nat) :
    alistFind (alistSet l k v) k' = if k = k' then some v else alistFind l k' := by
  induction l with
  | nil => simp [alistFind, alistSet]
  | cons p rest ih =>
      obtain ⟨pk, pv⟩ := p
      by_cases h : pk = k
      · subst h
        simp [alistSet, alistFind]
        by_cases h' : pk = k' <;> simp [h']
      · simp [alistSet, h, alistFind]
        by_cases h' : pk = k'
        · subst h'
          have : ¬ k = pk := fun hh => h hh.symm
          simp [this, alistFind]
        · simp [h', ih]

theorem alistSet_of_find_none {α : Type} (l : List (Nat × α)) (k : Nat) (v : α)
    (h : alistFind l k = none) : alistSet l k v = l ++ [(k, v)] := by
  induction l with
  | nil => simp [alistSet]
  | cons p rest ih =>
      obtain ⟨pk, pv⟩ := p
      simp only [alistFind] at h
      by_cases h' : pk = k
      · simp [h'] at h
      · simp only [alistSet, if_neg h', List.cons_append, List.cons.injEq, true_and]
        exact ih (by simpa [h'] using h)

theorem alistFind_append {α : Type} (l1 l2 : List (Nat × α)) (k : Nat) :
    alistFind (l1 ++ l2) k =
      match alistFind l1 k with
      | some v => some v
      | none => alistFind l2 k := by
  induction l1 with
  | nil => simp [alistFind]
  | cons p rest ih =>
      obtain ⟨pk, pv⟩ := p
      by_cases h : pk = k <;> simp [alistFind, h, ih]

theorem alistFind_map_range {α : Type} (n : Nat) (f : Nat → α) (k : Nat) :
    alistFind ((List.range n).map (fun i => (i, f i))) k =
      if k < n then some (f k) else none := by
  induction n with
  | zero => simp [alistFind]
  | succ m ih =>
      rw [List.range_succ, List.map_append, alistFind_append, ih]
      by_cases h : k < m
      · simp [h, Nat.lt_succ_of_lt h]
      · by_cases h' : k = m
        · subst h'
          simp [h, alistFind, Nat.lt_succ_self]
        · have hlt : ¬ k < m + 1 := by omega
          have hne : ¬ m = k := fun hh => h' hh.symm
          simp [h, hlt, hne, alistFind]

theorem alistFind_eq_none_iff {α : Type} (l : List (Nat × α)) (k : Nat) :
    alistFind l k = none ↔ k ∉ l.map Prod.fst := by
  induction l with
  | nil => simp [alistFind]
  | cons p rest ih =>
      obtain ⟨pk, pv⟩ := p
      by_cases h : pk = k <;> simp [alistFind, h, ih] <;> tauto

theorem alistFind_mem {α : Type} (l : List (Nat × α)) (k : Nat) (v : α)
    (h : alistFind l k = some v) : (k, v) ∈ l := by
  induction l with
  | nil => simp [alistFind] at h
  | cons p rest ih =>
      obtain ⟨pk, pv⟩ := p
      by_cases h' : pk = k
      · subst h'
        simp [alistFind] at h
        simp [h]
      · simp only [alistFind, if_neg h'] at h
        exact List.mem_cons_of_mem _ (ih h)

theorem alistFind_map_swap {α : Type} [DecidableEq α] (l : List (α × Nat)) (s : α) (c : Nat)
    (hnd : (l.map Prod.snd).Nodup) (hmem : (s, c) ∈ l) :
    alistFind (l.map Prod.swap) c = some s := by
  induction l with
  | nil => simp at hmem
  | cons p rest ih =>
      obtain ⟨pk, pv⟩ := p
      simp only [List.map_cons, List.nodup_cons] at hnd
      rcases List.mem_cons.mp hmem with h | h
      · cases h
        simp [alistFind, Prod.swap]
      · have : pv ≠ c := by
          intro hc
          exact hnd.1 (hc ▸ (List.mem_map.mpr ⟨(s, c), h, rfl⟩))
        simp only [List.map_cons, alistFind, Prod.swap, if_neg this]
        exact ih hnd.2 h

/-! ## Trie lemmas -/

theorem TrieNode.search_mk_nil (ch : List (Nat × TrieNode)) (cd : Option Nat) :
    (TrieNode.mk ch cd).search [] = cd := rfl

theorem TrieNode.search_mk_cons (ch : List (Nat × TrieNode)) (cd : Option Nat) (b : Nat)
    (r : List Nat) :
    (TrieNode.mk ch cd).search (b :: r) =
      match alistFind ch b with
      | none => none
      | some child => child.search r := rfl

theorem TrieNode.insert_mk_nil (ch : List (Nat × TrieNode)) (cd : Option Nat) (c : Nat) :
    (TrieNode.mk ch cd).insert [] c = TrieNode.mk ch (some c) := rfl

theorem TrieNode.insert_mk_cons (ch : List (Nat × TrieNode)) (cd : Option Nat) (b : Nat)
    (k : List Nat) (c : Nat) :
    (TrieNode.mk ch cd).insert (b :: k) c =
      TrieNode.mk (alistSet ch b (((alistFind ch b).getD TrieNode.empty).insert k c)) cd := rfl

theorem TrieNode.search_empty (k : List Nat) : TrieNode.empty.search k = none := by
  cases k with
  | nil => rfl
  | cons b r => rw [TrieNode.empty, TrieNode.search_mk_cons]; simp [alistFind]

/-- The key trie fact: `insert` overrides exactly the inserted key and
leaves every other lookup unchanged. -/
theorem TrieNode.search_insert (k : List Nat) (c : Nat) :
    ∀ (t : TrieNode) (k' : List Nat),
      (t.insert k c).search k' = if k' = k then some c else t.search k' := by
  induction k with
  | nil =>
      intro t k'
      obtain ⟨ch, cd⟩ := t
      rw [TrieNode.insert_mk_nil]
      cases k' with
      | nil => rw [TrieNode.search_mk_nil, if_pos rfl]
      | cons b' r =>
          rw [TrieNode.search_mk_cons, TrieNode.search_mk_cons]
          simp
  | cons b kt ih =>
      intro t k'
      obtain ⟨ch, cd⟩ := t
      rw [TrieNode.insert_mk_cons]
      cases k' with
      | nil =>
          rw [TrieNode.search_mk_nil, TrieNode.search_mk_nil]
          simp
      | cons b' r =>
          rw [TrieNode.search_mk_cons, TrieNode.search_mk_cons, alistFind_alistSet]
          by_cases hb : b = b'
          · subst hb
            rw [if_pos rfl]
            show (((alistFind ch b).getD TrieNode.empty).insert kt c).search r = _
            rw [ih]
            by_cases hr : r = kt
            · simp [hr]
            · have hne : ¬ (b :: r = b :: kt) := by simp [hr]
              rw [if_neg hr, if_neg hne]
              cases hfind : alistFind ch b with
              | none => simp [hfind, TrieNode.search_empty]
              | some child => simp [hfind]
          · rw [if_neg hb]
            have hne : ¬ (b' :: r = b :: kt) := by
              intro hh
              injection hh with h1 _
              exact hb h1.symm
            rw [if_neg hne]

theorem Trie.search_insert_lift (t : Trie) (k : List Nat) (c : Nat) (k' : List Nat) :
    (t.insert k c).search k' = if k' = k then some c else t.search k' := by
  simp [Trie.insert, Trie.search, TrieNode.search_insert]

/-- The dictionary present at the start of both codec runs: the 256
single-byte sequences with themselves as codes. -/
def initLookup (s : List Nat) : Option Nat :=
  match s with
  | [b] => if b < 256 then some b else none
  | _ => none

theorem foldRange_search_ne (s : List Nat) (hs : ∀ i : Nat, s ≠ [i]) :
    ∀ (n : Nat) (t0 : Trie),
      ((List.range n).foldl (fun t i => t.insert [i] i) t0).search s = t0.search s := by
  intro n
  induction n with
  | zero => intro t0; rfl
  | succ m ih =>
      intro t0
      rw [List.range_succ, List.foldl_append]
      simp only [List.foldl_cons, List.foldl_nil]
      rw [Trie.search_insert_lift, if_neg (hs m), ih]

theorem foldRange_search_single (b : Nat) :
    ∀ (n : Nat) (t0 : Trie),
      ((List.range n).foldl (fun t i => t.insert [i] i) t0).search [b] =
        if b < n then some b else t0.search [b] := by
  intro n
  induction n with
  | zero => intro t0; simp
  | succ m ih =>
      intro t0
      rw [List.range_succ, List.foldl_append]
      simp only [List.foldl_cons, List.foldl_nil]
      rw [Trie.search_insert_lift, ih]
      by_cases hb : b = m
      · subst hb
        simp [Nat.lt_succ_self]
      · have h1 : ¬ ([b] = [m]) := by simp [hb]
        rw [if_neg h1]
        by_cases hlt : b < m
        · rw [if_pos hlt, if_pos (by omega)]
        · rw [if_neg hlt, if_neg (by omega)]

theorem emptyRoot_search (s : List Nat) :
    ({ root := TrieNode.empty, next_code := 256 } : Trie).search s = none := by
  show TrieNode.search _ s = none
  exact TrieNode.search_empty s

theorem initTrie_search (s : List Nat) : initTrie.search s = initLookup s := by
  unfold initTrie
  cases s with
  | nil =>
      rw [foldRange_search_ne _ (by simp), emptyRoot_search]
      rfl
  | cons b r =>
      cases r with
      | nil =>
          rw [foldRange_search_single]
          by_cases hb : b < 256
          · simp [initLookup, hb]
          · rw [if_neg hb, emptyRoot_search]
            simp [initLookup, hb]
      | cons b2 r2 =>
          rw [foldRange_search_ne _ (by simp), emptyRoot_search]
          rfl

theorem compressInit_trie (mb : Nat) (vb : Bool) : (compressInit mb vb).trie = initTrie := by
  simp [compressInit]

theorem compressInit_search (mb : Nat) (vb : Bool) (s : List Nat) :
    (compressInit mb vb).trie.search s = initLookup s := by
  rw [compressInit_trie, initTrie_search]

theorem initTable_find (c : Nat) :
    alistFind initTable c = if c < 256 then some [c] else none := by
  simp [initTable, alistFind_map_range]

/-! ## Shapes of one compressor step -/

/-- A step whose extended match is still in the trie only extends
`current_bytes`. -/
theorem compressStep_munch (mb : Nat) (vb : Bool) (s : CState) (byte : Nat)
    (h : (s.trie.search (s.current_bytes ++ [byte])).isSome) :
    compressStep mb vb s byte = { s with current_bytes := s.current_bytes ++ [byte] } := by
  rw [compressStep]
  simp only [h, if_true]

/-- A step whose extended match misses: emit, conditionally insert,
reset the match, and conditionally grow the width. -/
theorem compressStep_emit (mb : Nat) (vb : Bool) (s : CState) (byte : Nat)
    (h : s.trie.search (s.current_bytes ++ [byte]) = none) :
    compressStep mb vb s byte =
      (fun trie1 =>
        if vb = true ∧ s.max_table_size ≤ trie1.next_code ∧ s.current_code_size < mb then
          { trie := trie1
            current_bytes := [byte]
            compressed_data := s.compressed_data ++ [s.trie.search s.current_bytes]
            current_code_size := s.current_code_size + 1
            max_table_size := 2 ^ (s.current_code_size + 1) }
        else
          { trie := trie1
            current_bytes := [byte]
            compressed_data := s.compressed_data ++ [s.trie.search s.current_bytes]
            current_code_size := s.current_code_size
            max_table_size := s.max_table_size })
      (if s.trie.next_code < s.max_table_size then
          { root := s.trie.root.insert (s.current_bytes ++ [byte]) s.trie.next_code,
            next_code := s.trie.next_code + 1 }
        else s.trie) := by
  rw [compressStep]
  simp only [h, Option.isSome_none, Bool.false_eq_true, if_false]
  by_cases hgate : s.trie.next_code < s.max_table_size
  · simp [hgate, Trie.get_next_code, Trie.insert]
  · simp [hgate]

/-- The compressor step never reads `compressed_data`; it only appends to
it. -/
theorem compressStep_data (mb : Nat) (vb : Bool) (s : CState) (d : List (Option Nat))
    (byte : Nat) :
    compressStep mb vb { s with compressed_data := d } byte =
      (fun t => { t with compressed_data := d ++ t.compressed_data })
        (compressStep mb vb { s with compressed_data := [] } byte) := by
  cases h : s.trie.search (s.current_bytes ++ [byte]) with
  | some c =>
      rw [compressStep_munch mb vb _ byte (by simpa using congrArg Option.isSome h),
        compressStep_munch mb vb _ byte (by simpa using congrArg Option.isSome h)]
      simp
  | none =>
      rw [compressStep_emit mb vb _ byte (by simpa using h),
        compressStep_emit mb vb _ byte (by simpa using h)]
      simp only []
      split <;> split <;> simp_all

/-- `compressed_data` threads through the whole loop as a pure
accumulator. -/
theorem foldl_compressStep_data (mb : Nat) (vb : Bool) :
    ∀ (rest : List Nat) (s : CState) (d : List (Option Nat)),
      List.foldl (compressStep mb vb) { s with compressed_data := d } rest =
        (fun F => { F with compressed_data := d ++ F.compressed_data })
          (List.foldl (compressStep mb vb) { s with compressed_data := [] } rest) := by
  intro rest
  induction rest with
  | nil => intro s d; simp
  | cons b r ih =>
      intro s d
      rw [List.foldl_cons, List.foldl_cons, compressStep_data mb vb s d b]
      simp only []
      set t := compressStep mb vb { s with compressed_data := [] } b with ht
      have h1 := ih t (d ++ t.compressed_data)
      have h2 := ih t t.compressed_data
      have heta : ({ t with compressed_data := t.compressed_data } : CState) = t := rfl
      rw [heta] at h2
      rw [h1, h2]
      simp

/-! ## Ghost dictionary entries

Both codec sides extend the initial 256-entry dictionary with the same
ordered list of `(sequence, code)` pairs.  `entLookup ents` is the
sequence-to-code view of `initial ∪ ents` (later entries win, matching
trie insertion), and `EntsWF` captures the shape every reachable entry
list has: codes are consecutive from 256, sequences are distinct and of
length at least two. -/

def entLookup (ents : List (List Nat × Nat)) (s : List Nat) : Option Nat :=
  ents.foldl (fun acc p => if s = p.1 then some p.2 else acc) (initLookup s)

def EntsWF (ents : List (List Nat × Nat)) : Prop :=
  ents.map Prod.snd = (List.range ents.length).map (fun i => 256 + i) ∧
  (ents.map Prod.fst).Nodup ∧
  ∀ p ∈ ents, 2 ≤ p.1.length

theorem entLookup_nil (s : List Nat) : entLookup [] s = initLookup s := rfl

theorem entLookup_append (ents : List (List Nat × Nat)) (q : List Nat × Nat) (s : List Nat) :
    entLookup (ents ++ [q]) s = if s = q.1 then some q.2 else entLookup ents s := by
  simp [entLookup, List.foldl_append]

theorem entLookup_mem (ents : List (List Nat × Nat)) (s : List Nat) (c : Nat)
    (h : entLookup ents s = some c) : (s, c) ∈ ents ∨ initLookup s = some c := by
  induction ents using List.reverseRecOn with
  | nil => exact Or.inr h
  | append_singleton rest q ih =>
      rw [entLookup_append] at h
      by_cases hs : s = q.1
      · rw [if_pos hs] at h
        left
        have hc : c = q.2 := by
          injection h with hh
          exact hh.symm
        rw [List.mem_append]
        right
        simp [hs, hc]
      · rw [if_neg hs] at h
        rcases ih h with h' | h'
        · exact Or.inl (List.mem_append_left _ h')
        · exact Or.inr h'

theorem entLookup_isSome_of_mem (ents : List (List Nat × Nat)) (s : List Nat)
    (h : s ∈ ents.map Prod.fst) : (entLookup ents s).isSome := by
  induction ents using List.reverseRecOn with
  | nil => simp at h
  | append_singleton rest q ih =>
      rw [entLookup_append]
      by_cases hs : s = q.1
      · simp [hs]
      · rw [if_neg hs]
        apply ih
        simp only [List.map_append, List.mem_append] at h
        rcases h with h' | h'
        · exact h'
        · simp at h'
          exact absurd h' hs

theorem entLookup_of_mem_nodup (ents : List (List Nat × Nat)) (s : List Nat) (c : Nat)
    (hnd : (ents.map Prod.fst).Nodup) (hmem : (s, c) ∈ ents) :
    entLookup ents s = some c := by
  induction ents using List.reverseRecOn with
  | nil => simp at hmem
  | append_singleton rest q ih =>
      rw [entLookup_append]
      simp only [List.map_append, List.nodup_append] at hnd
      rcases List.mem_append.mp hmem with h | h
      · have hs : ¬ s = q.1 := by
          intro hs
          have hmem2 : s ∈ rest.map Prod.fst := List.mem_map.mpr ⟨(s, c), h, rfl⟩
          exact hnd.2.2 hmem2 (by simp [hs])
        rw [if_neg hs]
        exact ih hnd.1 h
      · obtain ⟨q1, q2⟩ := q
        simp only [List.mem_singleton, Prod.mk.injEq] at h
        rw [if_pos (by simp [h.1])]
        simp [h.2]

/-- Sequences of well-formed entries are at least two bytes long, so they
never shadow the initial single-byte lookups. -/
theorem entLookup_single (ents : List (List Nat × Nat))
    (hlen : ∀ p ∈ ents, 2 ≤ p.1.length) (b : Nat) :
    entLookup ents [b] = initLookup [b] := by
  induction ents using List.reverseRecOn with
  | nil => rfl
  | append_singleton rest q ih =>
      rw [entLookup_append]
      have hq : 2 ≤ q.1.length := hlen q (List.mem_append_right _ (by simp))
      have hs : ¬ ([b] = q.1) := by
        intro hh
        rw [← hh] at hq
        simp at hq
      rw [if_neg hs]
      exact ih (fun p hp => hlen p (List.mem_append_left _ hp))

theorem EntsWF_nil : EntsWF [] := by
  refine ⟨by simp, by simp, by simp⟩

theorem EntsWF_codes_lt (ents : List (List Nat × Nat)) (hwf : EntsWF ents)
    (s : List Nat) (c : Nat) (hmem : (s, c) ∈ ents) : 256 ≤ c ∧ c < 256 + ents.length := by
  have : c ∈ ents.map Prod.snd := List.mem_map.mpr ⟨(s, c), hmem, rfl⟩
  rw [hwf.1] at this
  simp only [List.mem_map, List.mem_range] at this
  obtain ⟨i, hi, hc⟩ := this
  omega

theorem EntsWF_snd_nodup (ents : List (List Nat × Nat)) (hwf : EntsWF ents) :
    (ents.map Prod.snd).Nodup := by
  rw [hwf.1]
  refine List.Nodup.map ?_ (List.nodup_range _)
  intro a b hab
  simp only [] at hab
  omega

theorem EntsWF_extend (ents : List (List Nat × Nat)) (hwf : EntsWF ents) (s : List Nat)
    (hlen : 2 ≤ s.length) (hnew : entLookup ents s = none) :
    EntsWF (ents ++ [(s, 256 + ents.length)]) := by
  refine ⟨?_, ?_, ?_⟩
  · simp only [List.map_append, List.length_append, List.map_cons, List.map_nil,
      List.length_cons, List.length_nil]
    rw [hwf.1, List.range_succ]
    simp
  · simp only [List.map_append, List.map_cons, List.map_nil]
    rw [List.nodup_append]
    refine ⟨hwf.2.1, by simp, ?_⟩
    intro a ha
    simp only [List.mem_singleton]
    intro hh
    subst hh
    have := entLookup_isSome_of_mem ents a ha
    rw [hnew] at this
    simp at this
  · intro p hp
    rcases List.mem_append.mp hp with h | h
    · exact hwf.2.2 p h
    · simp at h
      subst h
      exact hlen

/-- The dictionary-extension attempt both sides perform once per emitted
code: gated insertion of `seq` at the next code, then the width-growth
rule, mirrored on the ghost entry list. -/
def attemptE (max_bits : Nat) (vb : Bool) (ents : List (List Nat × Nat))
    (nc size ceil : Nat) (seq : List Nat) : List (List Nat × Nat) × Nat × Nat × Nat :=
  let (ents1, nc1) := if nc < ceil then (ents ++ [(seq, nc)], nc + 1) else (ents, nc)
  if vb = true ∧ ceil ≤ nc1 ∧ size < max_bits then
    (ents1, nc1, size + 1, 2 ^ (size + 1))
  else (ents1, nc1, size, ceil)

theorem attemptE_nc (max_bits : Nat) (vb : Bool) (ents : List (List Nat × Nat))
    (size ceil : Nat) (seq : List Nat) :
    (attemptE max_bits vb ents (256 + ents.length) size ceil seq).2.1 =
      256 + (attemptE max_bits vb ents (256 + ents.length) size ceil seq).1.length := by
  rw [attemptE]
  by_cases hg : 256 + ents.length < ceil
  · simp only [hg, if_true]
    split <;> simp [Nat.add_assoc]
  · simp only [hg, if_false]
    split <;> simp

/-! ## Decoder table lookups over well-formed states -/

theorem tabFind_init (ents : List (List Nat × Nat)) (c : Nat) (hc : c < 256) :
    alistFind (initTable ++ ents.map Prod.swap) c = some [c] := by
  rw [alistFind_append, initTable_find]
  simp [hc]

theorem tabFind_ents (ents : List (List Nat × Nat)) (hnd : (ents.map Prod.snd).Nodup)
    (s : List Nat) (c : Nat) (hmem : (s, c) ∈ ents) (hc : 256 ≤ c) :
    alistFind (initTable ++ ents.map Prod.swap) c = some s := by
  rw [alistFind_append, initTable_find]
  have h1 : ¬ c < 256 := by omega
  simp only [h1, if_false]
  exact alistFind_map_swap ents s c hnd hmem

theorem map_fst_map_swap (ents : List (List Nat × Nat)) :
    (ents.map Prod.swap).map Prod.fst = ents.map Prod.snd := by
  rw [List.map_map]
  simp [Function.comp_def]

theorem tabFind_fresh (ents : List (List Nat × Nat)) (hwf : EntsWF ents) (c : Nat)
    (hc : 256 + ents.length ≤ c) :
    alistFind (initTable ++ ents.map Prod.swap) c = none := by
  rw [alistFind_append, initTable_find]
  have h1 : ¬ c < 256 := by omega
  simp only [h1, if_false]
  rw [alistFind_eq_none_iff, map_fst_map_swap, hwf.1]
  intro hmem
  simp only [List.mem_map, List.mem_range] at hmem
  obtain ⟨i, hi, hc2⟩ := hmem
  omega

theorem initLookup_eq_some (s : List Nat) (c : Nat) (h : initLookup s = some c) :
    s = [c] ∧ c < 256 := by
  match s with
  | [] => simp [initLookup] at h
  | [b] =>
      rw [initLookup] at h
      by_cases hb : b < 256
      · rw [if_pos hb] at h
        injection h with hh
        subst hh
        exact ⟨rfl, hb⟩
      · rw [if_neg hb] at h
        exact absurd h (by simp)
  | b :: b2 :: r => simp [initLookup] at h

/-! ## The encoder/decoder synchronization invariant

After the decoder has consumed exactly the codes the encoder has emitted
so far, the decoder state `D` trails the encoder state `E` by exactly one
dictionary-extension attempt: the attempt the encoder performed at its
latest emission, whose sequence is `D.current_bytes ++ [head of
E.current_bytes]`.  `ents0` is the ghost list of extra dictionary entries
the decoder has registered. -/

def SyncInv (mb : Nat) (vb : Bool) (ents0 : List (List Nat × Nat)) (E : CState) (D : DSt) : Prop :=
  EntsWF ents0 ∧
  D.table = initTable ++ ents0.map Prod.swap ∧
  D.next_code = 256 + ents0.length ∧
  D.current_bytes ≠ [] ∧
  ∃ x tl ents1 nc1 sz1 cl1,
    E.current_bytes = x :: tl ∧
    attemptE mb vb ents0 D.next_code D.current_code_size D.max_table_size
        (D.current_bytes ++ [x]) = (ents1, nc1, sz1, cl1) ∧
    EntsWF ents1 ∧
    (∀ s, E.trie.search s = entLookup ents1 s) ∧
    E.trie.next_code = nc1 ∧
    E.current_code_size = sz1 ∧
    E.max_table_size = cl1 ∧
    (entLookup ents1 E.current_bytes).isSome

theorem attemptE_components (mb : Nat) (vb : Bool) (ents : List (List Nat × Nat))
    (nc size ceil : Nat) (seq : List Nat) (ents1 : List (List Nat × Nat)) (nc1 sz1 cl1 : Nat)
    (h : attemptE mb vb ents nc size ceil seq = (ents1, nc1, sz1, cl1)) :
    (ents1, nc1) = (if nc < ceil then (ents ++ [(seq, nc)], nc + 1) else (ents, nc)) ∧
    (sz1, cl1) =
      (if vb = true ∧ ceil ≤ nc1 ∧ size < mb then (size + 1, 2 ^ (size + 1))
       else (size, ceil)) := by
  rw [attemptE] at h
  by_cases hg : nc < ceil
  · simp only [hg, if_true] at h ⊢
    by_cases hgr : vb = true ∧ ceil ≤ nc + 1 ∧ size < mb
    · rw [if_pos hgr] at h
      injection h with h1 h2
      injection h2 with h2 h3
      injection h3 with h3 h4
      subst h1 h2 h3 h4
      exact ⟨rfl, by rw [if_pos hgr]⟩
    · rw [if_neg hgr] at h
      injection h with h1 h2
      injection h2 with h2 h3
      injection h3 with h3 h4
      subst h1 h2 h3 h4
      exact ⟨rfl, by rw [if_neg hgr]⟩
  · simp only [hg, if_false] at h ⊢
    by_cases hgr : vb = true ∧ ceil ≤ nc ∧ size < mb
    · rw [if_pos hgr] at h
      injection h with h1 h2
      injection h2 with h2 h3
      injection h3 with h3 h4
      subst h1 h2 h3 h4
      exact ⟨rfl, by rw [if_pos hgr]⟩
    · rw [if_neg hgr] at h
      injection h with h1 h2
      injection h2 with h2 h3
      injection h3 with h3 h4
      subst h1 h2 h3 h4
      exact ⟨rfl, by rw [if_neg hgr]⟩

/-- The decoder, fed the code the encoder emits for its current match,
resolves it to exactly that match and performs the same dictionary
extension the encoder performed one emission earlier. -/
theorem dstep_sync (mb : Nat) (vb : Bool) (ents0 : List (List Nat × Nat)) (E : CState)
    (D : DSt) (hInv : SyncInv mb vb ents0 E D) (c : Nat)
    (hc : E.trie.search E.current_bytes = some c) :
    ∃ ents1 : List (List Nat × Nat),
      dstep mb vb D c = .ok
        { table := initTable ++ ents1.map Prod.swap
          next_code := 256 + ents1.length
          current_code_size := E.current_code_size
          max_table_size := E.max_table_size
          current_bytes := E.current_bytes
          decompressed_data := D.decompressed_data ++ [E.current_bytes] } ∧
      EntsWF ents1 ∧
      (∀ s, E.trie.search s = entLookup ents1 s) ∧
      E.trie.next_code = 256 + ents1.length := by
  obtain ⟨hwf0, htab, hnc, hDcb, x, tl, ents1, nc1, sz1, cl1, hcb, hAtt, hwf1, hsearch,
    hEnc, hEsz, hEcl, hsome⟩ := hInv
  obtain ⟨hEnts, hGrow⟩ := attemptE_components mb vb ents0 D.next_code D.current_code_size
    D.max_table_size (D.current_bytes ++ [x]) ents1 nc1 sz1 cl1 hAtt
  refine ⟨ents1, ?_, hwf1, hsearch, ?_⟩
  · -- the decoder step
    have hlook : entLookup ents1 E.current_bytes = some c := by
      rw [← hsearch]
      exact hc
    -- first settle the resolution, producing `dstepRecord` applied to the match
    have hres : dstep mb vb D c = .ok (dstepRecord mb vb D E.current_bytes) := by
      by_cases hg : D.next_code < D.max_table_size
      · rw [if_pos hg] at hEnts
        injection hEnts with hE1 hE2
        by_cases hpend : E.current_bytes = D.current_bytes ++ [x]
        · -- forward reference: the code is exactly the decoder's next code
          rw [hE1, entLookup_append] at hlook
          rw [if_pos hpend] at hlook
          injection hlook with hc0
          obtain ⟨d0, drest, hD⟩ : ∃ d0 drest, D.current_bytes = d0 :: drest := by
            cases hDc : D.current_bytes with
            | nil => exact absurd hDc hDcb
            | cons d0 drest => exact ⟨d0, drest, rfl⟩
          have hx : x = d0 := by
            have := hpend
            rw [hcb, hD] at this
            simp at this
            exact this.1
          have hfind : alistFind D.table c = none := by
            rw [htab]
            exact tabFind_fresh ents0 hwf0 c (by omega)
          rw [dstep, hfind, if_pos (by omega : c = D.next_code)]
          have hentry : D.current_bytes ++ D.current_bytes.take 1 = E.current_bytes := by
            rw [hpend, hD]
            simp [hx]
          rw [hentry]
        · -- the code is already in the decoder's table
          rw [hE1, entLookup_append] at hlook
          rw [if_neg hpend] at hlook
          rcases entLookup_mem ents0 E.current_bytes c hlook with hmem | hinit
          · have hc256 := EntsWF_codes_lt ents0 hwf0 _ _ hmem
            have hfind : alistFind D.table c = some E.current_bytes := by
              rw [htab]
              exact tabFind_ents ents0 (EntsWF_snd_nodup ents0 hwf0) _ c hmem hc256.1
            rw [dstep, hfind]
          · obtain ⟨hcb2, hc256⟩ := initLookup_eq_some _ _ hinit
            have hfind : alistFind D.table c = some E.current_bytes := by
              rw [htab, hcb2]
              exact tabFind_init ents0 c hc256
            rw [dstep, hfind]
      · rw [if_neg hg] at hEnts
        injection hEnts with hE1 hE2
        rw [hE1] at hlook
        rcases entLookup_mem ents0 E.current_bytes c hlook with hmem | hinit
        · have hc256 := EntsWF_codes_lt ents0 hwf0 _ _ hmem
          have hfind : alistFind D.table c = some E.current_bytes := by
            rw [htab]
            exact tabFind_ents ents0 (EntsWF_snd_nodup ents0 hwf0) _ c hmem hc256.1
          rw [dstep, hfind]
        · obtain ⟨hcb2, hc256⟩ := initLookup_eq_some _ _ hinit
          have hfind : alistFind D.table c = some E.current_bytes := by
            rw [htab, hcb2]
            exact tabFind_init ents0 c hc256
          rw [dstep, hfind]
    rw [hres]
    -- now compute the record update
    have htake : E.current_bytes.take 1 = [x] := by
      rw [hcb]
      rfl
    rw [dstepRecord]
    by_cases hg : D.next_code < D.max_table_size
    · rw [if_pos hg] at hEnts
      injection hEnts with hE1 hE2
      have hset : alistSet D.table D.next_code (D.current_bytes ++ E.current_bytes.take 1) =
          initTable ++ ents1.map Prod.swap := by
        rw [htake, htab, hE1,
          alistSet_of_find_none _ _ _ (tabFind_fresh ents0 hwf0 _ (by omega))]
        simp [hnc]
      simp only [hg, if_true]
      simp only [hset]
      have hlen1 : ents1.length = ents0.length + 1 := by
        rw [hE1]
        simp
      have hnc1 : D.next_code + 1 = 256 + ents1.length := by
        omega
      have hsz : (if vb = true ∧ D.max_table_size ≤ D.next_code + 1 ∧
            D.current_code_size < mb then
            (D.current_code_size + 1, 2 ^ (D.current_code_size + 1))
          else (D.current_code_size, D.max_table_size)) = (sz1, cl1) := by
        rw [hGrow, hE2]
      rw [hnc1]
      rw [hnc1] at hsz
      rw [hsz, hEsz, hEcl]
    · rw [if_neg hg] at hEnts
      injection hEnts with hE1 hE2
      simp only [hg, if_false]
      have hsz : (if vb = true ∧ D.max_table_size ≤ D.next_code ∧
            D.current_code_size < mb then
            (D.current_code_size + 1, 2 ^ (D.current_code_size + 1))
          else (D.current_code_size, D.max_table_size)) = (sz1, cl1) := by
        rw [hGrow, hE2]
      have h1 : D.table = initTable ++ ents1.map Prod.swap := by
        rw [htab, hE1]
      have h2 : D.next_code = 256 + ents1.length := by
        rw [hnc, hE1]
      rw [h1, h2]
      rw [h2] at hsz
      rw [hsz, hEsz, hEcl]
  · -- encoder's next code agrees with the new entry count
    by_cases hg : D.next_code < D.max_table_size
    · rw [if_pos hg] at hEnts
      injection hEnts with hE1 hE2
      rw [hEnc, hE2, hE1, hnc]
      simp only [List.length_append, List.length_cons, List.length_nil]
      omega
    · rw [if_neg hg] at hEnts
      injection hEnts with hE1 hE2
      rw [hEnc, hE2, hE1, hnc]

/-! ## The compressor's remaining output from a mid-run state -/

/-- The codes `lzw_compress` still appends when run from state `s` over the
remaining input `rest`, including the final flush. -/
def compressOut (mb : Nat) (vb : Bool) (s : CState) (rest : List Nat) : List (Option Nat) :=
  let F := rest.foldl (compressStep mb vb) s
  if F.current_bytes = [] then F.compressed_data
  else F.compressed_data ++ [F.trie.search F.current_bytes]

theorem lzw_compress_eq_compressOut (x : List Nat) (mb : Nat) (vb : Bool) :
    (lzw_compress x mb vb).1 = compressOut mb vb (compressInit mb vb) x := rfl

theorem compressOut_cons (mb : Nat) (vb : Bool) (s : CState) (b : Nat) (rest : List Nat) :
    compressOut mb vb s (b :: rest) = compressOut mb vb (compressStep mb vb s b) rest := rfl

theorem compressOut_data (mb : Nat) (vb : Bool) (s : CState) (rest : List Nat) :
    compressOut mb vb s rest =
      s.compressed_data ++ compressOut mb vb { s with compressed_data := [] } rest := by
  have h := foldl_compressStep_data mb vb rest s s.compressed_data
  rw [show ({ s with compressed_data := s.compressed_data } : CState) = s from rfl] at h
  rw [compressOut, compressOut, h]
  simp only []
  by_cases hcb : (List.foldl (compressStep mb vb) { s with compressed_data := [] } rest).current_bytes = []
  · simp [hcb]
  · simp [hcb]

/-- After the encoder emits and the decoder consumes one more code, the
lag invariant holds again, now with the decoder's ghost entries advanced
to `ents1` and the encoder one fresh attempt ahead. -/
theorem emit_establishes (mb : Nat) (vb : Bool) (ents1 : List (List Nat × Nat)) (E : CState)
    (b : Nat) (dd : List (List Nat))
    (hwf1 : EntsWF ents1)
    (hsearch1 : ∀ s, E.trie.search s = entLookup ents1 s)
    (hEnc1 : E.trie.next_code = 256 + ents1.length)
    (hcbne : E.current_bytes ≠ [])
    (hmiss : E.trie.search (E.current_bytes ++ [b]) = none)
    (hb : b < 256) :
    SyncInv mb vb ents1 (compressStep mb vb { E with compressed_data := [] } b)
      { table := initTable ++ ents1.map Prod.swap
        next_code := 256 + ents1.length
        current_code_size := E.current_code_size
        max_table_size := E.max_table_size
        current_bytes := E.current_bytes
        decompressed_data := dd } := by
  have hemit := compressStep_emit mb vb { E with compressed_data := [] } b hmiss
  set Estep := compressStep mb vb { E with compressed_data := [] } b with hEstep
  have hemit2 : Estep =
      (fun trie1 =>
        if vb = true ∧ E.max_table_size ≤ trie1.next_code ∧ E.current_code_size < mb then
          ({ trie := trie1
             current_bytes := [b]
             compressed_data := [E.trie.search E.current_bytes]
             current_code_size := E.current_code_size + 1
             max_table_size := 2 ^ (E.current_code_size + 1) } : CState)
        else
          ({ trie := trie1
             current_bytes := [b]
             compressed_data := [E.trie.search E.current_bytes]
             current_code_size := E.current_code_size
             max_table_size := E.max_table_size } : CState))
      (if E.trie.next_code < E.max_table_size then
          ({ root := E.trie.root.insert (E.current_bytes ++ [b]) E.trie.next_code,
             next_code := E.trie.next_code + 1 } : Trie)
        else E.trie) := hemit
  have hcbe : Estep.current_bytes = [b] := by
    rw [hemit2]
    by_cases hgE : E.trie.next_code < E.max_table_size <;>
      simp only [hgE, if_true, if_false] <;> split <;> rfl
  have htrie : Estep.trie =
      (if E.trie.next_code < E.max_table_size then
        ({ root := E.trie.root.insert (E.current_bytes ++ [b]) E.trie.next_code,
           next_code := E.trie.next_code + 1 } : Trie)
      else E.trie) := by
    rw [hemit2]
    by_cases hgE : E.trie.next_code < E.max_table_size <;>
      simp only [hgE, if_true, if_false] <;> split <;> rfl
  have hccs : (Estep.current_code_size, Estep.max_table_size) =
      (if vb = true ∧ E.max_table_size ≤ Estep.trie.next_code ∧ E.current_code_size < mb then
        (E.current_code_size + 1, 2 ^ (E.current_code_size + 1))
      else (E.current_code_size, E.max_table_size)) := by
    rw [htrie]
    rw [hemit2]
    by_cases hgE : E.trie.next_code < E.max_table_size <;>
      simp only [hgE, if_true, if_false] <;> split <;> rfl
  have hlookmiss : entLookup ents1 (E.current_bytes ++ [b]) = none := by
    rw [← hsearch1]
    exact hmiss
  have hlen2 : 2 ≤ (E.current_bytes ++ [b]).length := by
    cases hcb : E.current_bytes with
    | nil => exact absurd hcb hcbne
    | cons y ys => simp
  refine ⟨hwf1, rfl, rfl, hcbne, b, [], ?_⟩
  set r := attemptE mb vb ents1 (256 + ents1.length) E.current_code_size E.max_table_size
    (E.current_bytes ++ [b]) with hrdef
  have hAtt2 : attemptE mb vb ents1 (256 + ents1.length) E.current_code_size E.max_table_size
      (E.current_bytes ++ [b]) = (r.1, r.2.1, r.2.2.1, r.2.2.2) := by
    rw [hrdef]
  refine ⟨r.1, r.2.1, r.2.2.1, r.2.2.2, hcbe, hAtt2, ?_, ?_, ?_, ?_, ?_, ?_⟩
  · -- EntsWF r.1
    rw [hrdef, attemptE]
    by_cases hg : 256 + ents1.length < E.max_table_size
    · simp only [hg, if_true]
      split <;> exact EntsWF_extend ents1 hwf1 _ hlen2 hlookmiss
    · simp only [hg, if_false]
      split <;> exact hwf1
  · -- search
    intro s
    rw [htrie, hrdef, attemptE]
    by_cases hg : 256 + ents1.length < E.max_table_size
    · have hgE : E.trie.next_code < E.max_table_size := by
        rw [hEnc1]
        exact hg
      rw [if_pos hgE]
      simp only [hg, if_true]
      show Trie.search _ s = _
      rw [Trie.search]
      simp only []
      rw [TrieNode.search_insert]
      have : ∀ q, entLookup ((fun p => p.1)
          (if vb = true ∧ E.max_table_size ≤ 256 + ents1.length + 1 ∧ E.current_code_size < mb
           then (ents1 ++ [q], 256 + ents1.length + 1, E.current_code_size + 1,
             2 ^ (E.current_code_size + 1))
           else (ents1 ++ [q], 256 + ents1.length + 1, E.current_code_size,
             E.max_table_size))) s = entLookup (ents1 ++ [q]) s := by
        intro q
        split <;> rfl
      rw [this, entLookup_append]
      simp only [hEnc1]
      by_cases hs : s = E.current_bytes ++ [b]
      · rw [if_pos hs, if_pos hs]
      · rw [if_neg hs, if_neg hs, ← hsearch1]
        rfl
    · have hgE : ¬ E.trie.next_code < E.max_table_size := by
        rw [hEnc1]
        exact hg
      rw [if_neg hgE]
      simp only [hg, if_false]
      have : ∀ z : List (List Nat × Nat) × Nat × Nat × Nat, z.1 = ents1 →
          entLookup z.1 s = entLookup ents1 s := by
        intro z hz
        rw [hz]
      rw [hsearch1 s]
      split <;> rfl
  · -- next_code
    rw [htrie, hrdef, attemptE]
    by_cases hg : 256 + ents1.length < E.max_table_size
    · have hgE : E.trie.next_code < E.max_table_size := by
        rw [hEnc1]
        exact hg
      rw [if_pos hgE]
      simp only [hg, if_true, hEnc1]
      split <;> rfl
    · have hgE : ¬ E.trie.next_code < E.max_table_size := by
        rw [hEnc1]
        exact hg
      rw [if_neg hgE]
      simp only [hg, if_false, hEnc1]
      split <;> rfl
  · -- current_code_size
    have h1 := congrArg Prod.fst hccs
    simp only [] at h1
    rw [h1, htrie, hrdef, attemptE]
    by_cases hg : 256 + ents1.length < E.max_table_size
    · have hgE : E.trie.next_code < E.max_table_size := by
        rw [hEnc1]
        exact hg
      rw [if_pos hgE]
      simp only [hg, if_true, hEnc1]
      split <;> rfl
    · have hgE : ¬ E.trie.next_code < E.max_table_size := by
        rw [hEnc1]
        exact hg
      rw [if_neg hgE]
      simp only [hg, if_false, hEnc1]
      split <;> rfl
  · -- max_table_size
    have h2 := congrArg Prod.snd hccs
    simp only [] at h2
    rw [h2, htrie, hrdef, attemptE]
    by_cases hg : 256 + ents1.length < E.max_table_size
    · have hgE : E.trie.next_code < E.max_table_size := by
        rw [hEnc1]
        exact hg
      rw [if_pos hgE]
      simp only [hg, if_true, hEnc1]
      split <;> rfl
    · have hgE : ¬ E.trie.next_code < E.max_table_size := by
        rw [hEnc1]
        exact hg
      rw [if_neg hgE]
      simp only [hg, if_false, hEnc1]
      split <;> rfl
  · -- the new current match is a registered single byte
    rw [hcbe, hrdef, attemptE]
    by_cases hg : 256 + ents1.length < E.max_table_size
    · simp only [hg, if_true]
      have hwf2 := EntsWF_extend ents1 hwf1 _ hlen2 hlookmiss
      have single : ∀ q, q ∈ (ents1 ++ [(E.current_bytes ++ [b], 256 + ents1.length)]) →
          2 ≤ q.1.length := hwf2.2.2
      have := entLookup_single (ents1 ++ [(E.current_bytes ++ [b], 256 + ents1.length)])
        single b
      split <;> (rw [show ∀ (p : List (List Nat × Nat) × Nat × Nat × Nat), p.1 = p.1 from
        fun p => rfl]; simp only []; rw [this, initLookup]; simp [hb])
    · simp only [hg, if_false]
      have single : ∀ q, q ∈ ents1 → 2 ≤ q.1.length := hwf1.2.2
      have := entLookup_single ents1 single b
      split <;> (simp only []; rw [this, initLookup]; simp [hb])

theorem drun_cons (mb : Nat) (vb : Bool) (st : DSt) (c : Nat) (cs : List Nat) :
    drun mb vb st (c :: cs) =
      match dstep mb vb st c with
      | .error e => .error e
      | .ok st1 => drun mb vb st1 cs := rfl

theorem compressStep_emit_proj (mb : Nat) (vb : Bool) (E : CState) (b : Nat)
    (hmiss : E.trie.search (E.current_bytes ++ [b]) = none) :
    (compressStep mb vb { E with compressed_data := [] } b).current_bytes = [b] ∧
    (compressStep mb vb { E with compressed_data := [] } b).compressed_data =
      [E.trie.search E.current_bytes] := by
  have hemit := compressStep_emit mb vb { E with compressed_data := [] } b hmiss
  have hemit2 : compressStep mb vb { E with compressed_data := [] } b =
      (fun trie1 =>
        if vb = true ∧ E.max_table_size ≤ trie1.next_code ∧ E.current_code_size < mb then
          ({ trie := trie1
             current_bytes := [b]
             compressed_data := [E.trie.search E.current_bytes]
             current_code_size := E.current_code_size + 1
             max_table_size := 2 ^ (E.current_code_size + 1) } : CState)
        else
          ({ trie := trie1
             current_bytes := [b]
             compressed_data := [E.trie.search E.current_bytes]
             current_code_size := E.current_code_size
             max_table_size := E.max_table_size } : CState))
      (if E.trie.next_code < E.max_table_size then
          ({ root := E.trie.root.insert (E.current_bytes ++ [b]) E.trie.next_code,
             next_code := E.trie.next_code + 1 } : Trie)
        else E.trie) := hemit
  constructor
  · rw [hemit2]
    by_cases hgE : E.trie.next_code < E.max_table_size <;>
      simp only [hgE, if_true, if_false] <;> split <;> rfl
  · rw [hemit2]
    by_cases hgE : E.trie.next_code < E.max_table_size <;>
      simp only [hgE, if_true, if_false] <;> split <;> rfl

/-- The simulation: from synchronized states, the remaining compressor
output is a list of real codes that drives the decoder loop to reproduce
exactly the unflushed match plus the remaining input, ending with the
decoder's table and width state agreeing with the encoder's. -/
theorem sim (mb : Nat) (vb : Bool) :
    ∀ (rest : List Nat) (ents0 : List (List Nat × Nat)) (E : CState) (D : DSt),
      (∀ b ∈ rest, b < 256) →
      SyncInv mb vb ents0 E D →
      ∃ (codes : List Nat) (D2 : DSt) (ents2 : List (List Nat × Nat)),
        compressOut mb vb { E with compressed_data := [] } rest = codes.map some ∧
        drun mb vb D codes = Except.ok D2 ∧
        D2.decompressed_data.flatten =
          D.decompressed_data.flatten ++ E.current_bytes ++ rest ∧
        EntsWF ents2 ∧
        (∀ s, (List.foldl (compressStep mb vb) { E with compressed_data := [] } rest).trie.search s
            = entLookup ents2 s) ∧
        (List.foldl (compressStep mb vb) { E with compressed_data := [] } rest).trie.next_code
            = 256 + ents2.length ∧
        D2.table = initTable ++ ents2.map Prod.swap ∧
        D2.next_code = 256 + ents2.length ∧
        D2.current_code_size =
          (List.foldl (compressStep mb vb) { E with compressed_data := [] } rest).current_code_size ∧
        D2.max_table_size =
          (List.foldl (compressStep mb vb) { E with compressed_data := [] } rest).max_table_size := by
  intro rest
  induction rest with
  | nil =>
      intro ents0 E D hb hInv
      have hInvKeep := hInv
      obtain ⟨hwf0, htab, hnc, hDcb, x, tl, ents1, nc1, sz1, cl1, hcb, hAtt, hwf1, hsearch,
        hEnc, hEsz, hEcl, hsome⟩ := hInv
      obtain ⟨c, hcl⟩ := Option.isSome_iff_exists.mp hsome
      have hsc : E.trie.search E.current_bytes = some c := by
        rw [hsearch]
        exact hcl
      obtain ⟨ents1x, hstep, hwf1x, hsearchx, hEncx⟩ := dstep_sync mb vb ents0 E D hInvKeep c hsc
      have hne : E.current_bytes ≠ [] := by
        rw [hcb]
        simp
      refine ⟨[c],
        { table := initTable ++ ents1x.map Prod.swap
          next_code := 256 + ents1x.length
          current_code_size := E.current_code_size
          max_table_size := E.max_table_size
          current_bytes := E.current_bytes
          decompressed_data := D.decompressed_data ++ [E.current_bytes] },
        ents1x, ?_, ?_, ?_, hwf1x, ?_, ?_, rfl, rfl, rfl, rfl⟩
      · have h1 : compressOut mb vb { E with compressed_data := [] } [] =
            [E.trie.search E.current_bytes] := by
          show (if E.current_bytes = [] then ([] : List (Option Nat))
            else [] ++ [E.trie.search E.current_bytes]) = _
          rw [if_neg hne]
          rfl
        rw [h1, hsc]
        rfl
      · rw [drun_cons, hstep]
        rfl
      · simp
      · intro s
        simp only [List.foldl_nil]
        exact hsearchx s
      · simp only [List.foldl_nil]
        exact hEncx
  | cons b rest ih =>
      intro ents0 E D hb hInv
      have hInvKeep := hInv
      obtain ⟨hwf0, htab, hnc, hDcb, x, tl, ents1, nc1, sz1, cl1, hcb, hAtt, hwf1, hsearch,
        hEnc, hEsz, hEcl, hsome⟩ := hInv
      have hbb : b < 256 := hb b (List.mem_cons_self b _)
      have hbrest : ∀ q ∈ rest, q < 256 := fun q hq => hb q (List.mem_cons_of_mem _ hq)
      have hne : E.current_bytes ≠ [] := by
        rw [hcb]
        simp
      by_cases hm : (E.trie.search (E.current_bytes ++ [b])).isSome
      · -- the extended match is still in the trie: no emission this step
        have hstep : compressStep mb vb { E with compressed_data := [] } b =
            { E with compressed_data := ([] : List (Option Nat)),
                     current_bytes := E.current_bytes ++ [b] } :=
          compressStep_munch mb vb _ b hm
        have hInvNew : SyncInv mb vb ents0
            { E with current_bytes := E.current_bytes ++ [b] } D := by
          refine ⟨hwf0, htab, hnc, hDcb, x, tl ++ [b], ents1, nc1, sz1, cl1, ?_, hAtt, hwf1,
            hsearch, hEnc, hEsz, hEcl, ?_⟩
          · show E.current_bytes ++ [b] = x :: (tl ++ [b])
            rw [hcb]
            rfl
          · show (entLookup ents1 (E.current_bytes ++ [b])).isSome
            rw [← hsearch]
            exact hm
        obtain ⟨codes, D2, ents2, h1, h2, h3, h4, h5, h6, h7, h8, h9, h10⟩ :=
          ih ents0 { E with current_bytes := E.current_bytes ++ [b] } D hbrest hInvNew
        refine ⟨codes, D2, ents2, ?_, h2, ?_, h4, ?_, ?_, h7, h8, ?_, ?_⟩
        · rw [compressOut_cons, hstep]
          exact h1
        · rw [h3]
          simp [List.append_assoc]
        · intro s
          rw [List.foldl_cons, hstep]
          exact h5 s
        · rw [List.foldl_cons, hstep]
          exact h6
        · rw [List.foldl_cons, hstep]
          exact h9
        · rw [List.foldl_cons, hstep]
          exact h10
      · -- a miss: the encoder emits the code of its current match
        have hmiss : E.trie.search (E.current_bytes ++ [b]) = none :=
          Option.not_isSome_iff_eq_none.mp hm
        obtain ⟨c, hcl⟩ := Option.isSome_iff_exists.mp hsome
        have hsc : E.trie.search E.current_bytes = some c := by
          rw [hsearch]
          exact hcl
        obtain ⟨ents1x, hstep, hwf1x, hsearchx, hEncx⟩ :=
          dstep_sync mb vb ents0 E D hInvKeep c hsc
        have hInv1 : SyncInv mb vb ents1x (compressStep mb vb { E with compressed_data := [] } b)
            { table := initTable ++ ents1x.map Prod.swap
              next_code := 256 + ents1x.length
              current_code_size := E.current_code_size
              max_table_size := E.max_table_size
              current_bytes := E.current_bytes
              decompressed_data := D.decompressed_data ++ [E.current_bytes] } :=
          emit_establishes mb vb ents1x E b (D.decompressed_data ++ [E.current_bytes])
            hwf1x hsearchx hEncx hne hmiss hbb
        set Estep := compressStep mb vb { E with compressed_data := [] } b with hEstepDef
        obtain ⟨hproj1, hproj2⟩ := compressStep_emit_proj mb vb E b hmiss
        have hInv1c : SyncInv mb vb ents1x { Estep with compressed_data := [] }
            { table := initTable ++ ents1x.map Prod.swap
              next_code := 256 + ents1x.length
              current_code_size := E.current_code_size
              max_table_size := E.max_table_size
              current_bytes := E.current_bytes
              decompressed_data := D.decompressed_data ++ [E.current_bytes] } := hInv1
        obtain ⟨codes, D2, ents2, h1, h2, h3, h4, h5, h6, h7, h8, h9, h10⟩ :=
          ih ents1x { Estep with compressed_data := [] }
            { table := initTable ++ ents1x.map Prod.swap
              next_code := 256 + ents1x.length
              current_code_size := E.current_code_size
              max_table_size := E.max_table_size
              current_bytes := E.current_bytes
              decompressed_data := D.decompressed_data ++ [E.current_bytes] } hbrest hInv1c
        have hF := foldl_compressStep_data mb vb rest Estep Estep.compressed_data
        rw [show ({ Estep with compressed_data := Estep.compressed_data } : CState) = Estep
          from rfl] at hF
        refine ⟨c :: codes, D2, ents2, ?_, ?_, ?_, h4, ?_, ?_, h7, h8, ?_, ?_⟩
        · rw [compressOut_cons, compressOut_data, hproj2, hsc, h1]
          rfl
        · rw [drun_cons, hstep]
          exact h2
        · rw [h3]
          rw [hEstepDef]
          simp [hproj1, List.append_assoc]
        · intro s
          rw [List.foldl_cons, hF]
          exact h5 s
        · rw [List.foldl_cons, hF]
          exact h6
        · rw [List.foldl_cons, hF]
          exact h9
        · rw [List.foldl_cons, hF]
          exact h10

theorem filterMap_id_map_some (l : List Nat) : List.filterMap id (l.map some) = l := by
  induction l with
  | nil => rfl
  | cons a t ih => simp [ih]

theorem foldRange_next_code (n : Nat) : ∀ (t0 : Trie),
    ((List.range n).foldl (fun t i => t.insert [i] i) t0).next_code = t0.next_code := by
  induction n with
  | zero => intro t0; rfl
  | succ m ih =>
      intro t0
      rw [List.range_succ, List.foldl_append]
      simp only [List.foldl_cons, List.foldl_nil]
      show ((List.range m).foldl (fun t i => t.insert [i] i) t0).next_code = t0.next_code
      exact ih t0

theorem initTrie_next_code : initTrie.next_code = 256 := by
  unfold initTrie
  rw [foldRange_next_code]

theorem CState_eta (s : CState) :
    ({ s with compressed_data := s.compressed_data } : CState) = s := rfl

theorem lzw_decompress_nil (mb : Nat) (vb : Bool) :
    lzw_decompress [] mb vb = .error .emptyInput := rfl

theorem lzw_decompress_cons (c0 : Nat) (rest : List Nat) (mb : Nat) (vb : Bool)
    (cb : List Nat) (hfind : alistFind initTable c0 = some cb) :
    lzw_decompress (c0 :: rest) mb vb =
      match drun mb vb (dInit mb vb cb) rest with
      | .error e => .error e
      | .ok st => .ok st.decompressed_data.flatten := by
  simp only [lzw_decompress]
  rw [hfind]

theorem lzw_decompress_first_missing (c0 : Nat) (rest : List Nat) (mb : Nat) (vb : Bool)
    (hfind : alistFind initTable c0 = none) :
    lzw_decompress (c0 :: rest) mb vb = .error (.keyError c0) := by
  simp only [lzw_decompress]
  rw [hfind]

/-- The full round-trip with the final encoder/decoder state
correspondence, for a non-empty byte input. -/
theorem roundtrip_full (x : List Nat) (hx : ∀ b ∈ x, b < 256) (hne : x ≠ []) (mb : Nat)
    (hmb : 9 ≤ mb) (vb : Bool) :
    ∃ (c0 : Nat) (cb0 : List Nat) (codes : List Nat) (D2 : DSt)
      (ents2 : List (List Nat × Nat)),
      (lzw_compress x mb vb).1 = (c0 :: codes).map some ∧
      alistFind initTable c0 = some cb0 ∧
      drun mb vb (dInit mb vb cb0) codes = Except.ok D2 ∧
      lzw_decompress ((lzw_compress x mb vb).1.filterMap id) mb vb = Except.ok x ∧
      D2.decompressed_data.flatten = x ∧
      EntsWF ents2 ∧
      (∀ s, (List.foldl (compressStep mb vb) (compressInit mb vb) x).trie.search s
          = entLookup ents2 s) ∧
      (List.foldl (compressStep mb vb) (compressInit mb vb) x).trie.next_code
        = 256 + ents2.length ∧
      D2.table = initTable ++ ents2.map Prod.swap ∧
      D2.next_code = 256 + ents2.length ∧
      D2.current_code_size =
        (List.foldl (compressStep mb vb) (compressInit mb vb) x).current_code_size ∧
      D2.max_table_size =
        (List.foldl (compressStep mb vb) (compressInit mb vb) x).max_table_size := by
  match x, hne with
  | b :: rest, _ =>
  have hb256 : b < 256 := hx b (List.mem_cons_self b _)
  have hsingle : (compressInit mb vb).trie.search [b] = some b := by
    rw [compressInit_search]
    simp [initLookup, hb256]
  have happ : (compressInit mb vb).current_bytes ++ [b] = [b] := by
    show [] ++ [b] = [b]
    rfl
  set E1 : CState :=
    { trie := initTrie
      current_bytes := [b]
      compressed_data := []
      current_code_size := if vb then 9 else mb
      max_table_size := 2 ^ (if vb then 9 else mb) } with hE1def
  have hstep1 : compressStep mb vb (compressInit mb vb) b = E1 := by
    have h := compressStep_munch mb vb (compressInit mb vb) b
      (by
        show ((compressInit mb vb).trie.search ((compressInit mb vb).current_bytes
          ++ [b])).isSome
        rw [happ, hsingle]
        rfl)
    rw [h, happ, hE1def]
    simp [compressInit, compressInit_trie]
  have hE1trie : E1.trie = initTrie := by
    rw [hE1def]
  have hE1cb : E1.current_bytes = [b] := by
    rw [hE1def]
  have hE1data : E1.compressed_data = [] := by
    rw [hE1def]
  have hE1search : ∀ s, E1.trie.search s = entLookup [] s := by
    intro s
    rw [hE1trie, initTrie_search, entLookup_nil]
  have hE1next : E1.trie.next_code = 256 + ([] : List (List Nat × Nat)).length := by
    rw [hE1trie, initTrie_next_code]
    rfl
  have hsc : E1.trie.search E1.current_bytes = some b := by
    rw [hE1cb, hE1trie, initTrie_search]
    simp [initLookup, hb256]
  have hfindb : alistFind initTable b = some [b] := by
    rw [initTable_find]
    simp [hb256]
  match rest with
  | [] =>
      -- single-byte input: one code, decoded by the initial table alone
      have hout : compressOut mb vb E1 [] = [some b] := by
        have h0 : compressOut mb vb E1 [] =
            (if E1.current_bytes = [] then E1.compressed_data
              else E1.compressed_data ++ [E1.trie.search E1.current_bytes]) := rfl
        rw [h0, hE1cb, hE1data, hsc]
        rfl
      have hcomp : (lzw_compress [b] mb vb).1 = [some b] := by
        rw [lzw_compress_eq_compressOut, compressOut_cons, hstep1, hout]
      refine ⟨b, [b], [], dInit mb vb [b], [], ?_, hfindb, rfl, ?_, ?_, EntsWF_nil, ?_, ?_,
        ?_, rfl, ?_, ?_⟩
      · rw [hcomp]
        rfl
      · rw [hcomp]
        show lzw_decompress [b] mb vb = Except.ok [b]
        rw [lzw_decompress_cons b [] mb vb [b] hfindb]
        show Except.ok ([[b]] : List (List Nat)).flatten = Except.ok [b]
        simp
      · show [[b]].flatten = [b]
        simp
      · intro s
        rw [List.foldl_cons, hstep1, List.foldl_nil]
        exact hE1search s
      · rw [List.foldl_cons, hstep1, List.foldl_nil]
        exact hE1next
      · show (dInit mb vb [b]).table = initTable ++ List.map Prod.swap []
        show initTable = initTable ++ List.map Prod.swap []
        simp
      · rw [List.foldl_cons, hstep1, List.foldl_nil, hE1def]
        rfl
      · rw [List.foldl_cons, hstep1, List.foldl_nil, hE1def]
        rfl
  | b2 :: rest2 =>
      have hb2 : b2 < 256 := hx b2 (List.mem_cons_of_mem _ (List.mem_cons_self b2 _))
      have hrest2 : ∀ q ∈ rest2, q < 256 := fun q hq =>
        hx q (List.mem_cons_of_mem _ (List.mem_cons_of_mem _ hq))
      have hmiss : E1.trie.search (E1.current_bytes ++ [b2]) = none := by
        rw [hE1cb, hE1trie, initTrie_search]
        rfl
      have hE1ne : E1.current_bytes ≠ [] := by
        rw [hE1cb]
        simp
      have hInvE := emit_establishes mb vb [] E1 b2 [[b]] EntsWF_nil hE1search hE1next
        hE1ne hmiss hb2
      have hInvStart : SyncInv mb vb []
          (compressStep mb vb { E1 with compressed_data := [] } b2) (dInit mb vb [b]) := by
        obtain ⟨q1, _, _, q4, qex⟩ := hInvE
        refine ⟨q1, ?_, rfl, ?_, ?_⟩
        · show initTable = initTable ++ List.map Prod.swap []
          simp
        · show [b] ≠ []
          simp
        · exact qex
      set Estep2 := compressStep mb vb { E1 with compressed_data := [] } b2 with hEstep2def
      obtain ⟨hproj1, hproj2⟩ := compressStep_emit_proj mb vb E1 b2 hmiss
      obtain ⟨codes, D2, ents2, h1, h2, h3, h4, h5, h6, h7, h8, h9, h10⟩ :=
        sim mb vb rest2 [] Estep2 (dInit mb vb [b]) hrest2 hInvStart
      have hclear : ({ E1 with compressed_data := [] } : CState) = E1 := by
        rw [hE1def]
      have hF := foldl_compressStep_data mb vb rest2 Estep2 Estep2.compressed_data
      rw [CState_eta] at hF
      have hcompx : (lzw_compress (b :: b2 :: rest2) mb vb).1 = (b :: codes).map some := by
        rw [lzw_compress_eq_compressOut, compressOut_cons, hstep1, ← hclear,
          compressOut_cons]
        rw [compressOut_data mb vb Estep2 rest2, hproj2, hsc, h1]
        rfl
      have hfoldx : List.foldl (compressStep mb vb) (compressInit mb vb) (b :: b2 :: rest2)
          = (fun F => { F with compressed_data := Estep2.compressed_data ++ F.compressed_data })
            (List.foldl (compressStep mb vb) { Estep2 with compressed_data := [] } rest2) := by
        rw [List.foldl_cons, hstep1, ← hclear, List.foldl_cons]
        exact hF
      have hflat : D2.decompressed_data.flatten = b :: b2 :: rest2 := by
        rw [h3]
        have hdd : (dInit mb vb [b]).decompressed_data = [[b]] := rfl
        rw [hdd, hEstep2def, hproj1]
        simp
      refine ⟨b, [b], codes, D2, ents2, hcompx, hfindb, h2, ?_, hflat, h4, ?_, ?_, h7, h8,
        ?_, ?_⟩
      · rw [hcompx, filterMap_id_map_some]
        rw [lzw_decompress_cons b codes mb vb [b] hfindb, h2]
        show Except.ok D2.decompressed_data.flatten = _
        rw [hflat]
      · intro s
        rw [hfoldx]
        exact h5 s
      · rw [hfoldx]
        exact h6
      · rw [hfoldx]
        exact h9
      · rw [hfoldx]
        exact h10

/-! ## Ghost instrumentation of the compressor

`compressStepLog` runs `compressStep` and additionally records, for every
code the step assigns, the pair `(code, width active at the assignment)`.
Its first projection is exactly `compressStep`. -/

def compressStepLog (max_bits : Nat) (variable_bits : Bool)
    (p : CState × List (Nat × Nat)) (byte : Nat) : CState × List (Nat × Nat) :=
  (compressStep max_bits variable_bits p.1 byte,
   if (p.1.trie.search (p.1.current_bytes ++ [byte])).isSome then p.2
   else if p.1.trie.next_code < p.1.max_table_size then
     p.2 ++ [(p.1.trie.next_code, p.1.current_code_size)]
   else p.2)

/-- The assignment log of a whole compression run. -/
def compressLog (max_bits : Nat) (variable_bits : Bool) (x : List Nat) : List (Nat × Nat) :=
  (x.foldl (compressStepLog max_bits variable_bits) (compressInit max_bits variable_bits, [])).2

theorem compressStepLog_fst (mb : Nat) (vb : Bool) (p : CState × List (Nat × Nat)) (byte : Nat) :
    (compressStepLog mb vb p byte).1 = compressStep mb vb p.1 byte := rfl

theorem foldl_compressStepLog_fst (mb : Nat) (vb : Bool) :
    ∀ (x : List Nat) (p : CState × List (Nat × Nat)),
      (x.foldl (compressStepLog mb vb) p).1 = x.foldl (compressStep mb vb) p.1 := by
  intro x
  induction x with
  | nil => intro p; rfl
  | cons b r ih =>
      intro p
      rw [List.foldl_cons, List.foldl_cons, ih, compressStepLog_fst]

/-- The compressor-run invariant behind the code-range and no-`None`
claims. -/
def CInv (log : List (Nat × Nat)) (E : CState) : Prop :=
  (∀ b, b < 256 → E.trie.search [b] = some b) ∧
  (E.current_bytes = [] ∨ (E.trie.search E.current_bytes).isSome) ∧
  (∀ o ∈ E.compressed_data, ∃ c, o = some c ∧ (c < 256 ∨ c ∈ log.map Prod.fst)) ∧
  (∀ q ∈ log, q.1 < 2 ^ q.2) ∧
  (∀ s c, E.trie.search s = some c → c < 256 ∨ c ∈ log.map Prod.fst) ∧
  E.max_table_size = 2 ^ E.current_code_size

theorem CInv_init (mb : Nat) (vb : Bool) : CInv [] (compressInit mb vb) := by
  refine ⟨?_, Or.inl rfl, ?_, ?_, ?_, ?_⟩
  · intro b hb
    rw [compressInit_search]
    simp [initLookup, hb]
  · intro o ho
    simp only [show (compressInit mb vb).compressed_data = [] from rfl] at ho
    simp at ho
  · simp
  · intro s c hs
    rw [compressInit_search] at hs
    left
    match s, hs with
    | [b], hs =>
        rw [initLookup] at hs
        by_cases hb : b < 256
        · rw [if_pos hb] at hs
          injection hs with hh
          omega
        · rw [if_neg hb] at hs
          exact absurd hs (by simp)
  · rfl

theorem CInv_step (mb : Nat) (vb : Bool) (log : List (Nat × Nat)) (E : CState) (byte : Nat)
    (hbyte : byte < 256) (hinv : CInv log E) :
    CInv (compressStepLog mb vb (E, log) byte).2 (compressStep mb vb E byte) := by
  obtain ⟨h1, h2, h3, h4, h5, h6⟩ := hinv
  by_cases hm : (E.trie.search (E.current_bytes ++ [byte])).isSome
  · -- munch: only the current match changes
    rw [compressStep_munch mb vb E byte hm]
    have hlog : (compressStepLog mb vb (E, log) byte).2 = log := by
      rw [compressStepLog]
      simp only [hm, if_true]
    rw [hlog]
    exact ⟨h1, Or.inr hm, h3, h4, h5, h6⟩
  · have hmiss : E.trie.search (E.current_bytes ++ [byte]) = none :=
      Option.not_isSome_iff_eq_none.mp hm
    have hcbne : E.current_bytes ≠ [] := by
      intro hcb
      apply hm
      rw [hcb]
      show (E.trie.search [byte]).isSome = true
      rw [h1 byte hbyte]
      rfl
    have hcs : (E.trie.search E.current_bytes).isSome := by
      rcases h2 with h | h
      · exact absurd h hcbne
      · exact h
    have hlen2 : 2 ≤ (E.current_bytes ++ [byte]).length := by
      cases hcb : E.current_bytes with
      | nil => exact absurd hcb hcbne
      | cons y ys => simp
    have hlog : (compressStepLog mb vb (E, log) byte).2 =
        (if E.trie.next_code < E.max_table_size then
          log ++ [(E.trie.next_code, E.current_code_size)] else log) := by
      rw [compressStepLog]
      simp only [hmiss, Option.isSome_none, Bool.false_eq_true, if_false]
    rw [compressStep_emit mb vb E byte hmiss, hlog]
    have hmonofst : ∀ c, c ∈ log.map Prod.fst →
        c ∈ (if E.trie.next_code < E.max_table_size then
          log ++ [(E.trie.next_code, E.current_code_size)] else log).map Prod.fst := by
      intro c hc
      split <;> simp_all
    by_cases hg : E.trie.next_code < E.max_table_size
    · simp only [hg, if_true]
      have hsearch2 : ∀ s, (Trie.search
          ({ root := E.trie.root.insert (E.current_bytes ++ [byte]) E.trie.next_code,
             next_code := E.trie.next_code + 1 } : Trie) s) =
          (if s = E.current_bytes ++ [byte] then some E.trie.next_code
           else E.trie.search s) := by
        intro s
        show TrieNode.search _ s = _
        rw [TrieNode.search_insert]
        rfl
      have hA : ∀ s c, (Trie.search
          ({ root := E.trie.root.insert (E.current_bytes ++ [byte]) E.trie.next_code,
             next_code := E.trie.next_code + 1 } : Trie) s) = some c →
          c < 256 ∨ c ∈ (log ++ [(E.trie.next_code, E.current_code_size)]).map Prod.fst := by
        intro s c hsrch
        rw [hsearch2] at hsrch
        by_cases hseq : s = E.current_bytes ++ [byte]
        · rw [if_pos hseq] at hsrch
          injection hsrch with hh
          right
          simp [← hh]
        · rw [if_neg hseq] at hsrch
          rcases h5 s c hsrch with h | h
          · exact Or.inl h
          · right
            simp_all
      have hsingle2 : ∀ q, q < 256 → (Trie.search
          ({ root := E.trie.root.insert (E.current_bytes ++ [byte]) E.trie.next_code,
             next_code := E.trie.next_code + 1 } : Trie) [q]) = some q := by
        intro q hq
        rw [hsearch2]
        have : ¬ ([q] = E.current_bytes ++ [byte]) := by
          intro hh
          rw [← hh] at hlen2
          simp at hlen2
        rw [if_neg this]
        exact h1 q hq
      split
      · -- width grew
        refine ⟨hsingle2, ?_, ?_, ?_, hA, ?_⟩
        · right
          rw [hsingle2 byte hbyte]
          rfl
        · intro o ho
          simp only [List.mem_append, List.mem_singleton] at ho
          rcases ho with ho | ho
          · obtain ⟨c, hc1, hc2⟩ := h3 o ho
            refine ⟨c, hc1, ?_⟩
            rcases hc2 with h | h
            · exact Or.inl h
            · right
              simp_all
          · obtain ⟨c, hc⟩ := Option.isSome_iff_exists.mp hcs
            refine ⟨c, by rw [ho, hc], ?_⟩
            rcases h5 E.current_bytes c hc with h | h
            · exact Or.inl h
            · right
              simp_all
        · intro q hq
          simp only [List.mem_append, List.mem_singleton] at hq
          rcases hq with hq | hq
          · exact h4 q hq
          · rw [hq]
            rw [h6] at hg
            exact hg
        · rfl
      · -- width unchanged
        refine ⟨hsingle2, ?_, ?_, ?_, hA, h6⟩
        · right
          rw [hsingle2 byte hbyte]
          rfl
        · intro o ho
          simp only [List.mem_append, List.mem_singleton] at ho
          rcases ho with ho | ho
          · obtain ⟨c, hc1, hc2⟩ := h3 o ho
            refine ⟨c, hc1, ?_⟩
            rcases hc2 with h | h
            · exact Or.inl h
            · right
              simp_all
          · obtain ⟨c, hc⟩ := Option.isSome_iff_exists.mp hcs
            refine ⟨c, by rw [ho, hc], ?_⟩
            rcases h5 E.current_bytes c hc with h | h
            · exact Or.inl h
            · right
              simp_all
        · intro q hq
          simp only [List.mem_append, List.mem_singleton] at hq
          rcases hq with hq | hq
          · exact h4 q hq
          · rw [hq]
            rw [h6] at hg
            exact hg
    · simp only [hg, if_false]
      split
      · -- width grew with no insertion
        refine ⟨h1, ?_, ?_, h4, ?_, ?_⟩
        · right
          rw [h1 byte hbyte]
          rfl
        · intro o ho
          simp only [List.mem_append, List.mem_singleton] at ho
          rcases ho with ho | ho
          · exact h3 o ho
          · obtain ⟨c, hc⟩ := Option.isSome_iff_exists.mp hcs
            exact ⟨c, by rw [ho, hc], h5 E.current_bytes c hc⟩
        · exact h5
        · rfl
      · refine ⟨h1, ?_, ?_, h4, ?_, h6⟩
        · right
          rw [h1 byte hbyte]
          rfl
        · intro o ho
          simp only [List.mem_append, List.mem_singleton] at ho
          rcases ho with ho | ho
          · exact h3 o ho
          · obtain ⟨c, hc⟩ := Option.isSome_iff_exists.mp hcs
            exact ⟨c, by rw [ho, hc], h5 E.current_bytes c hc⟩
        · exact h5

theorem CInv_foldl (mb : Nat) (vb : Bool) :
    ∀ (x : List Nat) (p : CState × List (Nat × Nat)),
      (∀ b ∈ x, b < 256) → CInv p.2 p.1 →
      CInv (x.foldl (compressStepLog mb vb) p).2 (x.foldl (compressStep mb vb) p.1) := by
  intro x
  induction x with
  | nil => intro p _ h; exact h
  | cons b r ih =>
      intro p hb h
      rw [List.foldl_cons, List.foldl_cons]
      have hstep := CInv_step mb vb p.2 p.1 b (hb b (List.mem_cons_self b _)) h
      have := ih (compressStepLog mb vb p b) (fun q hq => hb q (List.mem_cons_of_mem _ hq))
        (by
          rw [compressStepLog_fst]
          exact (by
            have : compressStepLog mb vb (p.1, p.2) b = compressStepLog mb vb p b := rfl
            rw [← this]
            exact hstep))
      rw [compressStepLog_fst] at this
      exact this

/-! ## Width evolution -/

/-- The code widths visited by a compression run, one entry per loop state
(initial state included). -/
def compressWidths (max_bits : Nat) (variable_bits : Bool) (x : List Nat) : List Nat :=
  (List.scanl (compressStep max_bits variable_bits) (compressInit max_bits variable_bits)
    x).map (fun s => s.current_code_size)

theorem compressStep_width (mb : Nat) (vb : Bool) (s : CState) (b : Nat) :
    (compressStep mb vb s b).current_code_size = s.current_code_size ∨
    ((compressStep mb vb s b).current_code_size = s.current_code_size + 1 ∧
      vb = true ∧ s.current_code_size < mb) := by
  by_cases hm : (s.trie.search (s.current_bytes ++ [b])).isSome
  · rw [compressStep_munch mb vb s b hm]
    exact Or.inl rfl
  · rw [compressStep_emit mb vb s b (Option.not_isSome_iff_eq_none.mp hm)]
    simp only []
    split <;> split <;>
      first
        | (rename_i hgr
           exact Or.inr ⟨rfl, hgr.1, hgr.2.2⟩)
        | exact Or.inl rfl

theorem compressStep_width_le (mb : Nat) (vb : Bool) (s : CState) (b : Nat) :
    s.current_code_size ≤ (compressStep mb vb s b).current_code_size := by
  rcases compressStep_width mb vb s b with h | h
  · omega
  · omega

theorem compressStep_width_ub (mb : Nat) (vb : Bool) (s : CState) (b : Nat)
    (h : s.current_code_size ≤ mb) :
    (compressStep mb vb s b).current_code_size ≤ mb := by
  rcases compressStep_width mb vb s b with h2 | h2
  · omega
  · omega

theorem compressStep_width_fixed (mb : Nat) (s : CState) (b : Nat) :
    (compressStep mb false s b).current_code_size = s.current_code_size := by
  rcases compressStep_width mb false s b with h | h
  · exact h
  · exact absurd h.2.1 (by simp)

theorem scanl_map_head {α β γ : Type} (f : β → α → β) (i : β) (l : List α) (g : β → γ) :
    ((List.scanl f i l).map g).head? = some (g i) := by
  cases l <;> simp [List.scanl_nil, List.scanl_cons]

theorem widths_chain (mb : Nat) (vb : Bool) :
    ∀ (x : List Nat) (E : CState),
      List.Chain' (· ≤ ·)
        ((List.scanl (compressStep mb vb) E x).map (fun s => s.current_code_size)) := by
  intro x
  induction x with
  | nil => intro E; simp [List.scanl_nil]
  | cons b r ih =>
      intro E
      simp only [List.scanl_cons, List.singleton_append, List.map_cons]
      rw [List.chain'_cons']
      refine ⟨?_, ih (compressStep mb vb E b)⟩
      intro y hy
      rw [scanl_map_head] at hy
      simp only [Option.mem_def, Option.some.injEq] at hy
      rw [← hy]
      exact compressStep_width_le mb vb E b

theorem widths_le (mb : Nat) (vb : Bool) :
    ∀ (x : List Nat) (E : CState), E.current_code_size ≤ mb →
      ∀ w ∈ (List.scanl (compressStep mb vb) E x).map (fun s => s.current_code_size),
        w ≤ mb := by
  intro x
  induction x with
  | nil =>
      intro E hE w hw
      simp [List.scanl_nil] at hw
      omega
  | cons b r ih =>
      intro E hE w hw
      simp only [List.scanl_cons, List.singleton_append, List.map_cons] at hw
      rcases List.mem_cons.mp hw with h | h
      · omega
      · exact ih (compressStep mb vb E b) (compressStep_width_ub mb vb E b hE) w h

theorem widths_fixed (mb : Nat) :
    ∀ (x : List Nat) (E : CState),
      ∀ w ∈ (List.scanl (compressStep mb false) E x).map (fun s => s.current_code_size),
        w = E.current_code_size := by
  intro x
  induction x with
  | nil =>
      intro E w hw
      simp [List.scanl_nil] at hw
      exact hw
  | cons b r ih =>
      intro E w hw
      simp only [List.scanl_cons, List.singleton_append, List.map_cons] at hw
      rcases List.mem_cons.mp hw with h | h
      · exact h
      · rw [ih (compressStep mb false E b) w h, compressStep_width_fixed]

theorem dstep_ok_record (mb : Nat) (vb : Bool) (st : DSt) (c : Nat) (st' : DSt)
    (h : dstep mb vb st c = .ok st') : ∃ entry, st' = dstepRecord mb vb st entry := by
  rw [dstep] at h
  cases hf : alistFind st.table c with
  | some entry =>
      rw [hf] at h
      injection h with hh
      exact ⟨entry, hh.symm⟩
  | none =>
      rw [hf] at h
      by_cases hc : c = st.next_code
      · rw [if_pos hc] at h
        injection h with hh
        exact ⟨st.current_bytes ++ st.current_bytes.take 1, hh.symm⟩
      · rw [if_neg hc] at h
        exact absurd h (by simp)

theorem dstepRecord_width (mb : Nat) (vb : Bool) (st : DSt) (entry : List Nat) :
    (dstepRecord mb vb st entry).current_code_size = st.current_code_size ∨
    ((dstepRecord mb vb st entry).current_code_size = st.current_code_size + 1 ∧
      vb = true ∧ st.current_code_size < mb) := by
  rw [dstepRecord]
  by_cases hg : st.next_code < st.max_table_size
  · simp only [hg, if_true]
    by_cases hgr : vb = true ∧ st.max_table_size ≤ st.next_code + 1 ∧
        st.current_code_size < mb
    · rw [if_pos hgr]
      exact Or.inr ⟨rfl, hgr.1, hgr.2.2⟩
    · rw [if_neg hgr]
      exact Or.inl rfl
  · simp only [hg, if_false]
    by_cases hgr : vb = true ∧ st.max_table_size ≤ st.next_code ∧ st.current_code_size < mb
    · rw [if_pos hgr]
      exact Or.inr ⟨rfl, hgr.1, hgr.2.2⟩
    · rw [if_neg hgr]
      exact Or.inl rfl

theorem drun_width (mb : Nat) (vb : Bool) :
    ∀ (codes : List Nat) (st st' : DSt), drun mb vb st codes = .ok st' →
      st.current_code_size ≤ st'.current_code_size ∧
      (st.current_code_size ≤ mb → st'.current_code_size ≤ mb) ∧
      (vb = false → st'.current_code_size = st.current_code_size) := by
  intro codes
  induction codes with
  | nil =>
      intro st st' h
      injection h with hh
      rw [hh]
      exact ⟨Nat.le_refl _, fun h2 => h2, fun _ => rfl⟩
  | cons c cs ih =>
      intro st st' h
      rw [drun_cons] at h
      cases hd : dstep mb vb st c with
      | error e =>
          rw [hd] at h
          exact absurd h (by simp)
      | ok st1 =>
          rw [hd] at h
          obtain ⟨hle, hub, hfix⟩ := ih st1 st' h
          obtain ⟨entry, hrec⟩ := dstep_ok_record mb vb st c st1 hd
          rcases dstepRecord_width mb vb st entry with hw | hw
          · rw [hrec] at hle hub hfix
            rw [hw] at hle hub
            refine ⟨hle, hub, ?_⟩
            intro hv
            rw [hfix hv]
            exact hw
          · obtain ⟨hw1, hw2, hw3⟩ := hw
            rw [hrec] at hle hub hfix
            rw [hw1] at hle hub
            refine ⟨by omega, by omega, ?_⟩
            intro hv
            rw [hv] at hw2
            exact absurd hw2 (by simp)

theorem dstepRecord_singles (mb : Nat) (vb : Bool) (st : DSt) (entry : List Nat)
    (hs : ∀ b, b < 256 → alistFind st.table b = some [b]) (hn : 256 ≤ st.next_code) :
    (∀ b, b < 256 → alistFind (dstepRecord mb vb st entry).table b = some [b]) ∧
    256 ≤ (dstepRecord mb vb st entry).next_code := by
  rw [dstepRecord]
  by_cases hg : st.next_code < st.max_table_size
  · simp only [hg, if_true]
    constructor
    · intro b hb
      rw [alistFind_alistSet, if_neg (by omega), hs b hb]
    · omega
  · simp only [hg, if_false]
    constructor
    · intro b hb
      exact hs b hb
    · omega

theorem drun_singles (mb : Nat) (vb : Bool) :
    ∀ (codes : List Nat) (st st' : DSt), drun mb vb st codes = .ok st' →
      (∀ b, b < 256 → alistFind st.table b = some [b]) → 256 ≤ st.next_code →
      (∀ b, b < 256 → alistFind st'.table b = some [b]) := by
  intro codes
  induction codes with
  | nil =>
      intro st st' h hs hn
      injection h with hh
      rw [hh] at hs
      exact hs
  | cons c cs ih =>
      intro st st' h hs hn
      rw [drun_cons] at h
      cases hd : dstep mb vb st c with
      | error e =>
          rw [hd] at h
          exact absurd h (by simp)
      | ok st1 =>
          rw [hd] at h
          obtain ⟨entry, hrec⟩ := dstep_ok_record mb vb st c st1 hd
          obtain ⟨hs1, hn1⟩ := dstepRecord_singles mb vb st entry hs hn
          rw [← hrec] at hs1 hn1
          exact ih st1 st' h hs1 hn1

/-! ## Final helper layer for the claim theorems -/

theorem initTable_find_inv (c : Nat) (v : List Nat) (h : alistFind initTable c = some v) :
    c < 256 ∧ v = [c] := by
  rw [initTable_find] at h
  by_cases hc : c < 256
  · rw [if_pos hc] at h
    injection h with hh
    exact ⟨hc, hh.symm⟩
  · rw [if_neg hc] at h
    exact absurd h (by simp)

/-- Over a well-formed entry list, the encoder's sequence-to-code view and
the decoder's code-to-sequence table hold exactly the same pairs. -/
theorem entLookup_iff (ents : List (List Nat × Nat)) (hwf : EntsWF ents) (s : List Nat)
    (c : Nat) :
    entLookup ents s = some c ↔ alistFind (initTable ++ ents.map Prod.swap) c = some s := by
  constructor
  · intro h
    rcases entLookup_mem ents s c h with hmem | hinit
    · exact tabFind_ents ents (EntsWF_snd_nodup ents hwf) s c hmem
        (EntsWF_codes_lt ents hwf s c hmem).1
    · obtain ⟨hs, hc⟩ := initLookup_eq_some s c hinit
      rw [hs]
      exact tabFind_init ents c hc
  · intro h
    rw [alistFind_append] at h
    cases hfi : alistFind initTable c with
    | some v =>
        rw [hfi] at h
        injection h with hh
        obtain ⟨hc, hv⟩ := initTable_find_inv c v hfi
        rw [← hh, hv]
        rw [entLookup_single ents hwf.2.2 c]
        rw [initLookup]
        simp [hc]
    | none =>
        rw [hfi] at h
        have hmem := alistFind_mem _ _ _ h
        rw [List.mem_map] at hmem
        obtain ⟨p, hp, hps⟩ := hmem
        have h1 : p.2 = c := congrArg Prod.fst hps
        have h2 : p.1 = s := congrArg Prod.snd hps
        rw [← h2, ← h1]
        exact entLookup_of_mem_nodup ents p.1 p.2 hwf.2.1 hp

theorem compress_CInv_final (x : List Nat) (mb : Nat) (vb : Bool)
    (hx : ∀ b ∈ x, b < 256) :
    CInv (compressLog mb vb x) (List.foldl (compressStep mb vb) (compressInit mb vb) x) :=
  CInv_foldl mb vb x (compressInit mb vb, []) hx (CInv_init mb vb)

theorem lzw_compress_mem_cases (x : List Nat) (mb : Nat) (vb : Bool) (o : Option Nat)
    (ho : o ∈ (lzw_compress x mb vb).1) :
    o ∈ (List.foldl (compressStep mb vb) (compressInit mb vb) x).compressed_data ∨
    ((List.foldl (compressStep mb vb) (compressInit mb vb) x).current_bytes ≠ [] ∧
      o = (List.foldl (compressStep mb vb) (compressInit mb vb) x).trie.search
        (List.foldl (compressStep mb vb) (compressInit mb vb) x).current_bytes) := by
  rw [lzw_compress_eq_compressOut, compressOut] at ho
  by_cases hcb : (List.foldl (compressStep mb vb) (compressInit mb vb) x).current_bytes = []
  · rw [if_pos hcb] at ho
    exact Or.inl ho
  · rw [if_neg hcb] at ho
    rcases List.mem_append.mp ho with h | h
    · exact Or.inl h
    · right
      refine ⟨hcb, ?_⟩
      simpa using h

theorem dstepRecord_dd (mb : Nat) (vb : Bool) (st : DSt) (entry : List Nat) :
    (dstepRecord mb vb st entry).decompressed_data =
      st.decompressed_data ++ [entry] := by
  rw [dstepRecord]

theorem compressInit_ccs (mb : Nat) (vb : Bool) :
    (compressInit mb vb).current_code_size = if vb then 9 else mb := rfl

theorem dInit_ccs (mb : Nat) (vb : Bool) (cb : List Nat) :
    (dInit mb vb cb).current_code_size = if vb then 9 else mb := rfl

theorem replicate_bytes (n b : Nat) (hb : b < 256) : ∀ q ∈ List.replicate n b, q < 256 := by
  intro q hq
  rw [List.eq_of_mem_replicate hq]
  exact hb

/-- The sequence of code widths the decoder holds during a run: the width
at entry to each iteration of the `for code in compressed_data` loop, then
the width of the state the run ends in; the trace stops at the iteration
that raises. -/
def drunWidths (max_bits : Nat) (variable_bits : Bool) : DSt → List Nat → List Nat
  | st, [] => [st.current_code_size]
  | st, code :: rest =>
      match dstep max_bits variable_bits st code with
      | .error _ => [st.current_code_size]
      | .ok st1 => st.current_code_size :: drunWidths max_bits variable_bits st1 rest

theorem drunWidths_head (mb : Nat) (vb : Bool) (st : DSt) (codes : List Nat) :
    (drunWidths mb vb st codes).head? = some st.current_code_size := by
  cases codes with
  | nil => rfl
  | cons c cs =>
      simp only [drunWidths]
      cases hd : dstep mb vb st c with
      | error e => rfl
      | ok st1 => rfl

theorem drunWidths_ne_nil (mb : Nat) (vb : Bool) (st : DSt) (codes : List Nat) :
    drunWidths mb vb st codes ≠ [] := by
  cases codes with
  | nil => simp [drunWidths]
  | cons c cs =>
      simp only [drunWidths]
      cases hd : dstep mb vb st c with
      | error e => simp
      | ok st1 => simp

theorem dstep_width (mb : Nat) (vb : Bool) (st : DSt) (c : Nat) (st1 : DSt)
    (h : dstep mb vb st c = Except.ok st1) :
    st.current_code_size ≤ st1.current_code_size ∧
    (st.current_code_size ≤ mb → st1.current_code_size ≤ mb) ∧
    (vb = false → st1.current_code_size = st.current_code_size) := by
  obtain ⟨entry, he⟩ := dstep_ok_record mb vb st c st1 h
  subst he
  rcases dstepRecord_width mb vb st entry with h2 | h2
  · exact ⟨by omega, by omega, fun _ => h2⟩
  · refine ⟨by omega, by omega, fun hf => ?_⟩
    rw [hf] at h2
    exact absurd h2.2.1 (by simp)

theorem drunWidths_chain (mb : Nat) (vb : Bool) :
    ∀ (codes : List Nat) (st : DSt), List.Chain' (· ≤ ·) (drunWidths mb vb st codes) := by
  intro codes
  induction codes with
  | nil =>
      intro st
      simp [drunWidths]
  | cons c cs ih =>
      intro st
      simp only [drunWidths]
      cases hd : dstep mb vb st c with
      | error e => simp
      | ok st1 =>
          show List.Chain' (· ≤ ·) (st.current_code_size :: drunWidths mb vb st1 cs)
          rw [List.chain'_cons']
          refine ⟨?_, ih st1⟩
          intro y hy
          simp only [drunWidths_head, Option.mem_some_iff] at hy
          rw [← hy]
          exact (dstep_width mb vb st c st1 hd).1

theorem drunWidths_le (mb : Nat) (vb : Bool) :
    ∀ (codes : List Nat) (st : DSt), st.current_code_size ≤ mb →
      ∀ w ∈ drunWidths mb vb st codes, w ≤ mb := by
  intro codes
  induction codes with
  | nil =>
      intro st hst w hw
      simp [drunWidths] at hw
      omega
  | cons c cs ih =>
      intro st hst w hw
      simp only [drunWidths] at hw
      cases hd : dstep mb vb st c with
      | error e =>
          rw [hd] at hw
          have hw2 : w ∈ [st.current_code_size] := hw
          simp at hw2
          omega
      | ok st1 =>
          rw [hd] at hw
          have hw2 : w ∈ st.current_code_size :: drunWidths mb vb st1 cs := hw
          rcases List.mem_cons.mp hw2 with hw3 | hw3
          · omega
          · exact ih st1 ((dstep_width mb vb st c st1 hd).2.1 hst) w hw3

theorem drunWidths_fixed (mb : Nat) :
    ∀ (codes : List Nat) (st : DSt),
      ∀ w ∈ drunWidths mb false st codes, w = st.current_code_size := by
  intro codes
  induction codes with
  | nil =>
      intro st w hw
      simp [drunWidths] at hw
      exact hw
  | cons c cs ih =>
      intro st w hw
      simp only [drunWidths] at hw
      cases hd : dstep mb false st c with
      | error e =>
          rw [hd] at hw
          have hw2 : w ∈ [st.current_code_size] := hw
          simp at hw2
          exact hw2
      | ok st1 =>
          rw [hd] at hw
          have hw2 : w ∈ st.current_code_size :: drunWidths mb false st1 cs := hw
          rcases List.mem_cons.mp hw2 with hw3 | hw3
          · exact hw3
          · rw [ih st1 w hw3, (dstep_width mb false st c st1 hd).2.2 rfl]

theorem drunWidths_last (mb : Nat) (vb : Bool) :
    ∀ (codes : List Nat) (st st' : DSt), drun mb vb st codes = Except.ok st' →
      (drunWidths mb vb st codes).getLast? = some st'.current_code_size := by
  intro codes
  induction codes with
  | nil =>
      intro st st' h
      injection h with hh
      rw [hh]
      rfl
  | cons c cs ih =>
      intro st st' h
      rw [drun_cons] at h
      simp only [drunWidths]
      cases hd : dstep mb vb st c with
      | error e =>
          rw [hd] at h
          exact Except.noConfusion h
      | ok st1 =>
          rw [hd] at h
          have h2 := ih st1 st' h
          show (st.current_code_size :: drunWidths mb vb st1 cs).getLast? =
            some st'.current_code_size
          cases hL : drunWidths mb vb st1 cs with
          | nil => exact absurd hL (drunWidths_ne_nil mb vb st1 cs)
          | cons a l =>
              rw [hL] at h2
              rw [List.getLast?_cons_cons]
              exact h2

/-! ## The claims -/

/-- C1 (counterexample): the round-trip claim fails for the empty byte
sequence: `lzw_compress` returns an empty code list, and decompressing it
raises EmptyInput instead of returning the empty input. -/
theorem C1_empty_roundtrip_fails :
    lzw_decompress (((lzw_compress [] 12 false).1).filterMap id) 12 false ≠
      Except.ok ([] : List Nat) := by
  have h1 : ((lzw_compress [] 12 false).1).filterMap id = [] := rfl
  rw [h1, lzw_decompress_nil]
  simp

/-- C1 (amended): for every NON-EMPTY byte sequence `x` and every valid
parameter pair (`9 ≤ max_bits`, any `variable_width`), the compressor
produces a list of real codes (no `None`), and decompressing that code
sequence with the same parameters yields exactly `x`.  The concrete
`b"TOBEORNOTTOBEORTOBEORNOT"` scenario is the witness instance. -/
theorem C1_roundtrip_nonempty (x : List Nat) (hx : ∀ b ∈ x, b < 256) (hne : x ≠ [])
    (mb : Nat) (hmb : 9 ≤ mb) (vb : Bool) :
    (∀ o ∈ (lzw_compress x mb vb).1, o.isSome) ∧
    lzw_decompress ((lzw_compress x mb vb).1.filterMap id) mb vb = Except.ok x := by
  obtain ⟨c0, cb0, codes, D2, ents2, hcomp, _, _, hdec, _⟩ :=
    roundtrip_full x hx hne mb hmb vb
  refine ⟨?_, hdec⟩
  intro o ho
  rw [hcomp] at ho
  rw [List.mem_map] at ho
  obtain ⟨c, _, hc⟩ := ho
  rw [← hc]
  rfl

/-- C1 (witness): the concrete scenario of the claim, input
`b"TOBEORNOTTOBEORTOBEORNOT"` with `max_bits = 12`, fixed width. -/
theorem C1_roundtrip_nonempty_witness :
    (∀ o ∈ (lzw_compress [84, 79, 66, 69, 79, 82, 78, 79, 84, 84, 79, 66, 69, 79, 82, 84,
        79, 66, 69, 79, 82, 78, 79, 84] 12 false).1, o.isSome) ∧
    lzw_decompress ((lzw_compress [84, 79, 66, 69, 79, 82, 78, 79, 84, 84, 79, 66, 69, 79,
        82, 84, 79, 66, 69, 79, 82, 78, 79, 84] 12 false).1.filterMap id) 12 false =
      Except.ok [84, 79, 66, 69, 79, 82, 78, 79, 84, 84, 79, 66, 69, 79, 82, 84, 79, 66,
        69, 79, 82, 78, 79, 84] :=
  C1_roundtrip_nonempty
    [84, 79, 66, 69, 79, 82, 78, 79, 84, 84, 79, 66, 69, 79, 82, 84, 79, 66, 69, 79, 82,
      78, 79, 84]
    (by decide) (by decide) 12 (by decide) false

/-- C5: for every valid parameter pair, decompressing the empty code
sequence fails with the EmptyInput error (the `IndexError` raised by
`compressed_data.pop(0)`), and with no other outcome. -/
theorem C5_empty_codes_error (mb : Nat) (hmb : 9 ≤ mb) (vb : Bool) :
    lzw_decompress [] mb vb = Except.error DecompressError.emptyInput :=
  lzw_decompress_nil mb vb

/-- C5 (witness). -/
theorem C5_empty_codes_error_witness :
    lzw_decompress [] 12 false = Except.error DecompressError.emptyInput :=
  C5_empty_codes_error 12 (by decide) false

/-- C6: for every valid parameter pair, compressing the empty byte
sequence returns an empty code sequence. -/
theorem C6_empty_input_compress (mb : Nat) (hmb : 9 ≤ mb) (vb : Bool) :
    (lzw_compress [] mb vb).1 = [] := rfl

/-- C6 (witness). -/
theorem C6_empty_input_compress_witness : (lzw_compress [] 12 true).1 = [] :=
  C6_empty_input_compress 12 (by decide) true

/-- C9: `lzw_decompress` mutates its list argument in a caller-visible
way: `compressed_data.pop(0)` removes the first element, so after the
call a non-empty argument list is its own tail, one element shorter, and
in particular not unchanged. -/
theorem C9_pop_mutation (l : List Nat) (hne : l ≠ []) :
    lzw_decompress_input_after l = l.tail ∧
    (lzw_decompress_input_after l).length = l.length - 1 ∧
    lzw_decompress_input_after l ≠ l := by
  match l, hne with
  | a :: t, _ =>
      refine ⟨rfl, by simp [lzw_decompress_input_after], ?_⟩
      show t ≠ a :: t
      exact fun hh => List.cons_ne_self a t hh.symm

/-- C9 (witness). -/
theorem C9_pop_mutation_witness :
    lzw_decompress_input_after [5000] = ([5000] : List Nat).tail ∧
    (lzw_decompress_input_after [5000]).length = ([5000] : List Nat).length - 1 ∧
    lzw_decompress_input_after [5000] ≠ [5000] :=
  C9_pop_mutation [5000] (by decide)

/-- C10: for every byte-sequence input and any parameters, the trie
lookup the compressor performs at each emission point (final flush
included) finds a registered sequence, so the returned code list contains
only real codes and never a `None`. -/
theorem C10_output_all_some (x : List Nat) (mb : Nat) (vb : Bool)
    (hx : ∀ b ∈ x, b < 256) :
    ∀ o ∈ (lzw_compress x mb vb).1, o.isSome := by
  intro o ho
  have hinv := compress_CInv_final x mb vb hx
  obtain ⟨h1, h2, h3, h4, h5, h6⟩ := hinv
  rcases lzw_compress_mem_cases x mb vb o ho with h | ⟨hne, ho2⟩
  · obtain ⟨c, hc, _⟩ := h3 o h
    rw [hc]
    rfl
  · rcases h2 with h | h
    · exact absurd h hne
    · rw [ho2]
      exact h

/-- C10 (witness). -/
theorem C10_output_all_some_witness :
    ((lzw_compress [84, 79, 66] 12 false).1.all Option.isSome) = true := by
  rw [List.all_eq_true]
  intro o ho
  exact C10_output_all_some [84, 79, 66] 12 false (by decide) o ho

/-- C2: a decoder step on a code absent from the table but equal to the
next-assignable-code counter emits `previous_sequence ++ previous_sequence.take 1`
(the forward-reference rule), and compressing then decompressing a run of
500 copies of byte `0x41` recovers the exact run. -/
theorem C2_forward_reference (mb : Nat) (hmb : 9 ≤ mb) (vb : Bool) :
    (∀ (st : DSt) (code : Nat), alistFind st.table code = none → code = st.next_code →
      dstep mb vb st code =
        Except.ok (dstepRecord mb vb st (st.current_bytes ++ st.current_bytes.take 1)) ∧
      (dstepRecord mb vb st (st.current_bytes ++ st.current_bytes.take 1)).decompressed_data =
        st.decompressed_data ++ [st.current_bytes ++ st.current_bytes.take 1]) ∧
    lzw_decompress ((lzw_compress (List.replicate 500 65) mb vb).1.filterMap id) mb vb =
      Except.ok (List.replicate 500 65) := by
  constructor
  · intro st code hfind hcode
    constructor
    · rw [dstep, hfind, if_pos hcode]
    · exact dstepRecord_dd mb vb st _
  · obtain ⟨_, _, _, _, _, _, _, _, hdec, _⟩ :=
      roundtrip_full (List.replicate 500 65) (replicate_bytes 500 65 (by decide))
        (by
          intro h
          have h2 := congrArg List.length h
          simp only [List.length_replicate, List.length_nil] at h2
          omega) mb hmb vb
    exact hdec

/-- C2 (witness): the forward-reference step at the concrete state reached
after the first code of the compressed 500-byte run, and the concrete
round-trip itself. -/
theorem C2_forward_reference_witness :
    dstep 12 false (dInit 12 false [65]) 256 =
      Except.ok (dstepRecord 12 false (dInit 12 false [65])
        ((dInit 12 false [65]).current_bytes ++ (dInit 12 false [65]).current_bytes.take 1)) ∧
    lzw_decompress ((lzw_compress (List.replicate 500 65) 12 false).1.filterMap id) 12 false =
      Except.ok (List.replicate 500 65) := by
  obtain ⟨h1, h2⟩ := C2_forward_reference 12 (by decide) false
  have hf : alistFind (dInit 12 false [65]).table 256 = none := by
    show alistFind initTable 256 = none
    simp [initTable_find]
  exact ⟨(h1 (dInit 12 false [65]) 256 hf rfl).1, h2⟩

set_option maxRecDepth 100000 in
/-- C3 (counterexample): mid-stream the dictionaries are NOT in parity.
On input `[65, 65, 65]` the compressor emits `[65, 256]`; after the
encoder has emitted its first token (one token emitted, encoder has read
`[65, 65]`), its trie already stores the pair `([65, 65], 256)`, while the
decoder that has consumed one token (the first code, `65`) still has only
the initial table, where code 256 is absent. -/
theorem C3_midstream_parity_fails :
    (lzw_compress [65, 65, 65] 12 false).1 = [some 65, some 256] ∧
    (List.foldl (compressStep 12 false) (compressInit 12 false) [65, 65]).compressed_data =
      [some 65] ∧
    (List.foldl (compressStep 12 false) (compressInit 12 false) [65, 65]).trie.search [65, 65] =
      some 256 ∧
    alistFind (dInit 12 false [65]).table 256 = none := by
  refine ⟨by decide, by decide, by decide, ?_⟩
  show alistFind initTable 256 = none
  simp [initTable_find]

/-- C3 (amended): the dictionary-parity invariant does hold at the END of
the streams: after the compressor has consumed the whole input and the
decoder has consumed every emitted code, the encoder's trie and the
decoder's code table contain exactly the same (sequence, code) pairs. -/
theorem C3_endstream_parity (x : List Nat) (hx : ∀ b ∈ x, b < 256) (hne : x ≠ [])
    (mb : Nat) (hmb : 9 ≤ mb) (vb : Bool) :
    ∃ (c0 : Nat) (cb0 : List Nat) (codes : List Nat) (D2 : DSt),
      (lzw_compress x mb vb).1 = (c0 :: codes).map some ∧
      alistFind initTable c0 = some cb0 ∧
      drun mb vb (dInit mb vb cb0) codes = Except.ok D2 ∧
      ∀ s c,
        (List.foldl (compressStep mb vb) (compressInit mb vb) x).trie.search s = some c ↔
        alistFind D2.table c = some s := by
  obtain ⟨c0, cb0, codes, D2, ents2, hcomp, hfind, hrun, _, _, hwf, hsearch, _, htab, _⟩ :=
    roundtrip_full x hx hne mb hmb vb
  refine ⟨c0, cb0, codes, D2, hcomp, hfind, hrun, ?_⟩
  intro s c
  rw [hsearch s, htab]
  exact entLookup_iff ents2 hwf s c

/-- C3 (witness): end-of-stream parity on the concrete input `[65, 65, 65]`. -/
theorem C3_endstream_parity_witness :
    ∃ (c0 : Nat) (cb0 : List Nat) (codes : List Nat) (D2 : DSt),
      (lzw_compress [65, 65, 65] 12 false).1 = (c0 :: codes).map some ∧
      alistFind initTable c0 = some cb0 ∧
      drun 12 false (dInit 12 false cb0) codes = Except.ok D2 ∧
      ∀ s c,
        (List.foldl (compressStep 12 false) (compressInit 12 false) [65, 65, 65]).trie.search s
            = some c ↔
        alistFind D2.table c = some s :=
  C3_endstream_parity [65, 65, 65] (by decide) (by decide) 12 (by decide) false

/-- C4 (counterexample): decompressing `[5000]` with `max_bits = 12` does
NOT fail with the InvalidCode error: the first code is looked up with
`table[current_code]` before the loop, so the failure is the unguarded
KeyError, a distinct outcome. -/
theorem C4_first_code_keyerror :
    lzw_decompress [5000] 12 false = Except.error (DecompressError.keyError 5000) ∧
    DecompressError.keyError 5000 ≠ DecompressError.invalidCode := by
  constructor
  · exact lzw_decompress_first_missing 5000 [] 12 false (by simp [initTable_find])
  · decide

/-- C4 (amended): inside the decode loop (every code after the first), a
code neither present in the table nor equal to the next-assignable-code
counter aborts the run with InvalidCode; a first code absent from the
initial table instead fails with the unguarded KeyError. -/
theorem C4_invalid_code (mb : Nat) (hmb : 9 ≤ mb) (vb : Bool) :
    (∀ (st : DSt) (code : Nat) (rest : List Nat), alistFind st.table code = none →
      code ≠ st.next_code →
      drun mb vb st (code :: rest) = Except.error DecompressError.invalidCode) ∧
    (∀ (c0 : Nat) (rest : List Nat), alistFind initTable c0 = none →
      lzw_decompress (c0 :: rest) mb vb = Except.error (DecompressError.keyError c0)) := by
  constructor
  · intro st code rest hfind hne
    have hstep : dstep mb vb st code = Except.error DecompressError.invalidCode := by
      rw [dstep, hfind, if_neg hne]
    rw [drun_cons, hstep]
  · intro c0 rest hfind
    exact lzw_decompress_first_missing c0 rest mb vb hfind

/-- C4 (witness): code 5000 mid-loop aborts with InvalidCode; code 5000
as the first code fails with KeyError. -/
theorem C4_invalid_code_witness :
    drun 12 false (dInit 12 false [65]) [5000] = Except.error DecompressError.invalidCode ∧
    lzw_decompress [5000, 65] 12 false = Except.error (DecompressError.keyError 5000) := by
  obtain ⟨h1, h2⟩ := C4_invalid_code 12 (by decide) false
  refine ⟨h1 (dInit 12 false [65]) 5000 [] ?_ (by decide), h2 5000 [65] ?_⟩
  · show alistFind initTable 5000 = none
    simp [initTable_find]
  · simp [initTable_find]

/-- C7: with `variable_width = true` the sequence of code widths taken
during a compression run, and likewise the sequence taken during a
decompression run, is non-decreasing, starts at 9, and never exceeds
`max_bits`; with `variable_width = false` the width is constantly
`max_bits` on both sides.  The decode trace is tied to the run: on a
successful run it ends at the final state's width. -/
theorem C7_width_monotone (mb : Nat) (hmb : 9 ≤ mb) (x : List Nat) :
    (List.Chain' (· ≤ ·) (compressWidths mb true x) ∧
      (compressWidths mb true x).head? = some 9 ∧
      ∀ w ∈ compressWidths mb true x, w ≤ mb) ∧
    (∀ w ∈ compressWidths mb false x, w = mb) ∧
    (∀ (cb : List Nat) (codes : List Nat),
      List.Chain' (· ≤ ·) (drunWidths mb true (dInit mb true cb) codes) ∧
      (drunWidths mb true (dInit mb true cb) codes).head? = some 9 ∧
      (∀ w ∈ drunWidths mb true (dInit mb true cb) codes, w ≤ mb) ∧
      ∀ st', drun mb true (dInit mb true cb) codes = Except.ok st' →
        (drunWidths mb true (dInit mb true cb) codes).getLast? =
          some st'.current_code_size) ∧
    (∀ (cb : List Nat) (codes : List Nat),
      ∀ w ∈ drunWidths mb false (dInit mb false cb) codes, w = mb) := by
  have hcit : (compressInit mb true).current_code_size = 9 := rfl
  have hcif : (compressInit mb false).current_code_size = mb := rfl
  have hdit : ∀ cb, (dInit mb true cb).current_code_size = 9 := fun _ => rfl
  have hdif : ∀ cb, (dInit mb false cb).current_code_size = mb := fun _ => rfl
  refine ⟨⟨widths_chain mb true x (compressInit mb true), ?_, ?_⟩, ?_, ?_, ?_⟩
  · show ((List.scanl (compressStep mb true) (compressInit mb true) x).map
      (fun s => s.current_code_size)).head? = some 9
    rw [scanl_map_head, hcit]
  · intro w hw
    exact widths_le mb true x (compressInit mb true) (by rw [hcit]; omega) w hw
  · intro w hw
    rw [widths_fixed mb x (compressInit mb false) w hw, hcif]
  · intro cb codes
    refine ⟨drunWidths_chain mb true codes (dInit mb true cb), ?_, ?_, ?_⟩
    · rw [drunWidths_head, hdit cb]
    · intro w hw
      exact drunWidths_le mb true codes (dInit mb true cb) (by rw [hdit cb]; omega) w hw
    · intro st' hrun
      exact drunWidths_last mb true codes (dInit mb true cb) st' hrun
  · intro cb codes w hw
    rw [drunWidths_fixed mb codes (dInit mb false cb) w hw, hdif cb]

/-- C7 (witness): the width properties at `max_bits = 12`, on the concrete
input `[65, 65, 65]` and on the concrete decode run starting from the
first sequence `[65]` over the remaining codes `[65, 256]`. -/
theorem C7_width_monotone_witness :
    List.Chain' (· ≤ ·) (drunWidths 12 true (dInit 12 true [65]) [65, 256]) ∧
    (drunWidths 12 true (dInit 12 true [65]) [65, 256]).head? = some 9 ∧
    List.Chain' (· ≤ ·) (compressWidths 12 true [65, 65, 65]) ∧
    (∀ w ∈ compressWidths 12 false [65, 65, 65], w = 12) :=
  ⟨((C7_width_monotone 12 (by decide) [65, 65, 65]).2.2.1 [65] [65, 256]).1,
   ((C7_width_monotone 12 (by decide) [65, 65, 65]).2.2.1 [65] [65, 256]).2.1,
   (C7_width_monotone 12 (by decide) [65, 65, 65]).1.1,
   (C7_width_monotone 12 (by decide) [65, 65, 65]).2.1⟩

/-- C8: every code the compressor emits is a natural number below
`2 ^ w`, where `w` is the width active at the moment that code was
assigned (codes below 256 were assigned at table-initialisation time,
under the initial width); and codes 0-255 map to the corresponding
single-byte sequence in the encoder's trie throughout the run, in the
decoder's initial table, and in the decoder's table after any successful
run. -/
theorem C8_code_range (x : List Nat) (hx : ∀ b ∈ x, b < 256) (mb : Nat) (hmb : 9 ≤ mb)
    (vb : Bool) :
    (∀ o ∈ (lzw_compress x mb vb).1, ∃ c, o = some c ∧
      ((c < 256 ∧ c < 2 ^ (if vb then 9 else mb)) ∨
        ∃ w, (c, w) ∈ compressLog mb vb x ∧ c < 2 ^ w)) ∧
    (∀ b, b < 256 →
      (List.foldl (compressStep mb vb) (compressInit mb vb) x).trie.search [b] = some b) ∧
    (∀ b, b < 256 → alistFind initTable b = some [b]) ∧
    (∀ (cb : List Nat) (codes : List Nat) (st' : DSt),
      drun mb vb (dInit mb vb cb) codes = Except.ok st' →
      ∀ b, b < 256 → alistFind st'.table b = some [b]) := by
  obtain ⟨h1, h2, h3, h4, h5, h6⟩ := compress_CInv_final x mb vb hx
  have hsmall : ∀ c : Nat, c < 256 → c < 2 ^ (if vb then 9 else mb) := by
    intro c hc
    cases vb with
    | true =>
        show c < 2 ^ 9
        omega
    | false =>
        show c < 2 ^ mb
        have hp : (2 : Nat) ^ 9 ≤ 2 ^ mb := Nat.pow_le_pow_right (by omega) hmb
        omega
  have hlog : ∀ c : Nat, c ∈ (compressLog mb vb x).map Prod.fst →
      ∃ w, (c, w) ∈ compressLog mb vb x ∧ c < 2 ^ w := by
    intro c hc
    rw [List.mem_map] at hc
    obtain ⟨q, hq, hq1⟩ := hc
    exact ⟨q.2, by rw [← hq1]; exact hq, by rw [← hq1]; exact h4 q hq⟩
  refine ⟨?_, h1, ?_, ?_⟩
  · intro o ho
    rcases lzw_compress_mem_cases x mb vb o ho with hmem | ⟨hne, hflush⟩
    · obtain ⟨c, hc, hcc⟩ := h3 o hmem
      refine ⟨c, hc, ?_⟩
      rcases hcc with h | h
      · exact Or.inl ⟨h, hsmall c h⟩
      · exact Or.inr (hlog c h)
    · rcases h2 with h | h
      · exact absurd h hne
      · obtain ⟨c, hc⟩ := Option.isSome_iff_exists.mp h
        refine ⟨c, by rw [hflush, hc], ?_⟩
        rcases h5 _ c hc with h | h
        · exact Or.inl ⟨h, hsmall c h⟩
        · exact Or.inr (hlog c h)
  · intro b hb
    rw [initTable_find, if_pos hb]
  · intro cb codes st' hrun
    refine drun_singles mb vb codes (dInit mb vb cb) st' hrun ?_ ?_
    · intro b hb
      show alistFind initTable b = some [b]
      rw [initTable_find, if_pos hb]
    · show 256 ≤ 256
      omega

/-- C8 (witness): the code-range and single-byte properties on the
concrete input `[65, 66, 65, 66]` at `max_bits = 12`, fixed width. -/
theorem C8_code_range_witness :
    (∀ o ∈ (lzw_compress [65, 66, 65, 66] 12 false).1, ∃ c, o = some c ∧
      ((c < 256 ∧ c < 2 ^ (if false then 9 else 12)) ∨
        ∃ w, (c, w) ∈ compressLog 12 false [65, 66, 65, 66] ∧ c < 2 ^ w)) ∧
    (∀ b, b < 256 → alistFind initTable b = some [b]) :=
  ⟨(C8_code_range [65, 66, 65, 66] (by decide) 12 (by decide) false).1,
   (C8_code_range [65, 66, 65, 66] (by decide) 12 (by decide) false).2.2.1⟩

